import Mathlib

/-!
# Verification of the disk-filltest write/verify engine

Shallow embedding of `disk-filltest.c` (version 0.8.2): the linear
congruential stream generator `lcg_random`, the fill phase
`write_randfiles`, the read/verify phase `read_randfiles`, the
expected-file-count computation, and the phase orchestration in `main`.

Machine integers are modelled as `Nat` with explicit reductions
(`% 2 ^ 64` for `uint64_t`, `% 2 ^ 32` for `unsigned int`).  File
contents are byte lists; `uint64_t` items are serialized in
little-endian order, matching the raw-memory `write`/`read` calls of
the C program on its target platform.  The OS is modelled by a byte
capacity: a `write` call transfers `min request remaining` bytes and
fails (returns `<= 0`) once the capacity is exhausted, which is the
disk-full condition the program is designed around; a `read` call
returns `min request remaining` bytes of the stored file.
-/

namespace DiskFilltest

/-- `2 ^ 64`, the modulus of `uint64_t` arithmetic. -/
def U64 : Nat := 2 ^ 64

/-- `2 ^ 32`, the modulus of `unsigned int` arithmetic. -/
def U32 : Nat := 2 ^ 32

/-- `UINT_MAX`, the sentinel used by `g_last_filesize` and `gopt_file_limit`. -/
def UINTMAX : Nat := 2 ^ 32 - 1

/-- The multiplier `0x27BB2EE687B0B0FDLLU` of `lcg_random`. -/
def lcgA : Nat := 0x27BB2EE687B0B0FD

/-- The additive constant `0xB504F32DLU` of `lcg_random`. -/
def lcgC : Nat := 0xB504F32D

/-- The state update of `lcg_random`: `*xn = A * *xn + C` over `uint64_t`. -/
def lcgStep (s : Nat) : Nat := (lcgA * s + lcgC) % U64

/-- `lcg_random(&xn)`: replaces the state by `A * xn + C (mod 2 ^ 64)` and
returns that new state.  Modelled as `state -> (returned value, new state)`. -/
def lcg_random (s : Nat) : Nat × Nat := (lcgStep s, lcgStep s)

/-- The `k`-th output item (0-based) of the generator started at `seed`:
the state has been advanced `k + 1` times when item `k` is returned. -/
def lcgOut (seed k : Nat) : Nat := lcgStep^[k + 1] seed

/-- The first `n` output items of the generator started at `seed`. -/
def lcgList (seed n : Nat) : List Nat := (List.range n).map (lcgOut seed)

/-! ## The geometric sum of the multiplier, and its 2-adic structure -/
/-- `geomS m = 1 + A + A ^ 2 + ... + A ^ (m - 1)` over `Nat`. -/
def geomS (m : Nat) : Nat := ∑ i ∈ Finset.range m, lcgA ^ i

/-! ## Transfer to `ZMod (2 ^ 64)` and the no-fixed-point theorem -/
/-- The state update viewed in `ZMod (2 ^ 64)`. -/
def lcgStepZ (x : ZMod U64) : ZMod U64 := (lcgA : ZMod U64) * x + (lcgC : ZMod U64)

/-! ## Blocks and byte serialization

`item_type` is `uint64_t`; a block is `1024 * 1024` bytes, i.e.
`1024 * 1024 / sizeof(item_type)` items.  `write(fd, block, ...)` stores
the raw item memory; we fix the target's little-endian byte order. -/
/-- Items per block: `(1024 * 1024) / sizeof(item_type)`. -/
def blockItems : Nat := 1024 * 1024 / 8

/-- Bytes per block: `sizeof(block)`. -/
def blockBytes : Nat := 1024 * 1024

/-- The 8 little-endian bytes of one `uint64_t` item. -/
def itemToBytes (x : Nat) : List Nat :=
  [x % 256, x / 2 ^ 8 % 256, x / 2 ^ 16 % 256, x / 2 ^ 24 % 256,
   x / 2 ^ 32 % 256, x / 2 ^ 40 % 256, x / 2 ^ 48 % 256, x / 2 ^ 56 % 256]

/-- The byte image of a list of items, in order. -/
def itemsToBytes (xs : List Nat) : List Nat := (xs.map itemToBytes).flatten

/-- Decode full 8-byte little-endian groups; a trailing partial group is
dropped, matching the `i < rb / sizeof(item_type)` bound of the verify loop. -/
def bytesToItems : List Nat → List Nat
  | b0 :: b1 :: b2 :: b3 :: b4 :: b5 :: b6 :: b7 :: rest =>
      (b0 + 2 ^ 8 * b1 + 2 ^ 16 * b2 + 2 ^ 24 * b3 + 2 ^ 32 * b4 +
        2 ^ 40 * b5 + 2 ^ 48 * b6 + 2 ^ 56 * b7) :: bytesToItems rest
  | _ => []

/-! ## The fill phase: `write_randfiles`

The OS `write` is modelled by a remaining byte capacity `rem`: a call
transfers `min request rem` bytes and returns `<= 0` (disk full) once
`rem` is exhausted, exactly the condition `write_randfiles` treats as
its non-fatal `done` termination. -/
/-- The items `block[0..blockItems)` generated for one block from state `rnd`. -/
def blockList (rnd : Nat) : List Nat := lcgList rnd blockItems

/-- The generator state after drawing one full block. -/
def lcgBlockAdvance (rnd : Nat) : Nat := lcgStep^[blockItems] rnd

/-- The block loop of `write_randfiles` for one file: the block buffer is
regenerated every iteration (`block[i] = lcg_random(&rnd)` runs even after
`done`), then the inner `while (wp != sizeof(block) && !done)` retry loop
stores the block.  With `rem` bytes of capacity left, the retry loop
transfers `min blockBytes rem` bytes; if that is short of the block, the
next `write` returns `<= 0` and `done` is set.  Returns
(bytes stored, `wtotal`, `done`, remaining capacity). -/
def writeFileBlocks (rnd : Nat) : Nat → Bool → Nat → List Nat × Nat × Bool × Nat
  | 0, done, rem => ([], 0, done, rem)
  | b + 1, true, rem => writeFileBlocks (lcgBlockAdvance rnd) b true rem
  | b + 1, false, rem =>
    if rem < blockBytes then
      match writeFileBlocks (lcgBlockAdvance rnd) b true 0 with
      | (bs, w, d, r) =>
          ((itemsToBytes (blockList rnd)).take rem ++ bs, rem + w, d, r)
    else
      match writeFileBlocks (lcgBlockAdvance rnd) b false (rem - blockBytes) with
      | (bs, w, d, r) =>
          ((itemsToBytes (blockList rnd)).take blockBytes ++ bs,
            blockBytes + w, d, r)

/-- The file loop of `write_randfiles`: `while (!done && filenum < gopt_file_limit)`
modelled with fuel `flimit - filenum`, with `rnd = g_seed + (++filenum)` in
`unsigned` arithmetic and `g_last_filesize = wtotal` truncated to
`unsigned int`.  Returns (file contents in creation order, final
`g_last_filesize`, `done`). -/
def writeFilesGo (gseed fsize : Nat) : Nat → Nat → Nat → Nat → List (List Nat) × Nat × Bool
  | 0, _, lastFS, _ => ([], lastFS, false)
  | fuel + 1, filenum, _, rem =>
    match writeFileBlocks ((gseed + (filenum + 1)) % U32) fsize false rem with
    | (content, wtotal, true, _) => ([content], wtotal % U32, true)
    | (content, wtotal, false, rem2) =>
      match writeFilesGo gseed fsize fuel (filenum + 1) (wtotal % U32) rem2 with
      | (fs, lfs, d) => (content :: fs, lfs, d)

/-- `write_randfiles` with base seed `gseed`, per-file size `fsize` blocks,
file limit `flimit` and byte capacity `cap`; `g_last_filesize` starts at
`UINT_MAX`. -/
def write_randfiles (gseed fsize flimit cap : Nat) : List (List Nat) × Nat × Bool :=
  writeFilesGo gseed fsize flimit 0 UINTMAX cap

/-- `expected_file_limit` as computed by `write_randfiles` when no explicit
file limit is configured and the free-space query returns `free_size`
bytes: `(free_size + gopt_file_size - 1) / (1024 * 1024) / gopt_file_size`
in `uint64_t` arithmetic, truncated to `unsigned int` on assignment. -/
def expectedFileLimit (free_size fileSizeMiB : Nat) : Nat :=
  ((free_size + fileSizeMiB - 1) % U64 / (1024 * 1024) / fileSizeMiB) % U32

/-- The full byte content of an error-free file: `fsize` blocks drawn from
the generator state `rnd`. -/
def fullFileBytes (rnd fsize : Nat) : List Nat :=
  itemsToBytes (lcgList rnd (fsize * blockItems))

/-- The expected contents of `fuel` consecutive error-free files starting
after file number `fn`. -/
def fullFiles (gseed fsize : Nat) : Nat → Nat → List (List Nat)
  | 0, _ => []
  | fuel + 1, fn =>
      fullFileBytes ((gseed + (fn + 1)) % U32) fsize :: fullFiles gseed fsize fuel (fn + 1)

/-! ## The read/verify phase: `read_randfiles`

The default (no immediate-unlink) path: `expected_file_limit` is the
number of files whose `open` succeeds when probing sequential names, i.e.
the length of the list of stored files.  A `read` of `read_size` bytes
returns `min read_size remaining` bytes of the file. -/
/-- Outcome of the block loop of `read_randfiles` on one file:
`ok rtotal done` when the loop ends without fatal error (`done` set by a
clean end-of-file), `mism blocknum offset` for the
`Mismatch to random sequence` + `exit(EXIT_FAILURE)` path, `short rtotal`
for the `Unexpectedly short file` + `exit(EXIT_FAILURE)` path. -/
inductive FileCheck where
  | ok (rtotal : Nat) (done : Bool)
  | mism (blocknum offset : Nat)
  | short (rtotal : Nat)
  deriving DecidableEq, Repr

/-- The verify loop `for (i = 0; i < rb / sizeof(item_type); ++i)` applied
to the decoded items of one read: each item is compared against
`lcg_random(&rnd)`; returns the first mismatching index (if any) together
with the generator state after the last draw. -/
def checkBlock : List Nat → Nat → Nat → Option Nat × Nat
  | [], rnd, _ => (none, rnd)
  | x :: xs, rnd, i =>
    if x = lcgStep rnd then checkBlock xs (lcgStep rnd) (i + 1)
    else (some i, lcgStep rnd)

/-- The block loop `for (blocknum = 0; blocknum < gopt_file_size; ++blocknum)`
of `read_randfiles`, with fuel `bleft = gopt_file_size - blocknum`.
`read_size` is shortened on the expected last file past the recorded
`g_last_filesize` (`size_t` arithmetic, hence the wrap-around in the
subtraction); `rb == 0` is end-of-file, fatal unless this is the expected
last file at exactly the recorded size; decoded items are compared to the
regenerated stream, a first mismatch reporting `i * sizeof(int)` as the
byte offset. -/
def readBlocks (content : List Nat) (fn1 limitN lastSize : Nat) :
    Nat → Nat → Nat → Nat → FileCheck
  | 0, _, _, rtotal => .ok rtotal false
  | bleft + 1, blocknum, rnd, rtotal =>
    let read_size :=
      if fn1 = limitN ∧ lastSize ≠ UINTMAX ∧ lastSize < blocknum * blockBytes then
        (U64 + lastSize - (blocknum - 1) * blockBytes) % U64
      else blockBytes
    let rb := min read_size (content.length - rtotal)
    if rb = 0 then
      if fn1 ≠ limitN ∨ (lastSize ≠ UINTMAX ∧ rtotal ≠ lastSize) then .short rtotal
      else .ok rtotal true
    else
      match checkBlock (bytesToItems ((content.drop rtotal).take rb)) rnd 0 with
      | (some i, _) => .mism blocknum (i * 4)
      | (none, rnd2) =>
          readBlocks content fn1 limitN lastSize bleft (blocknum + 1) rnd2 (rtotal + rb)

/-- Result of `read_randfiles`: `success` for the normal loop exits
(open failure on the next name, a clean end-of-file on the last file, or
all handles processed), carrying how many files were fully read and the
final `gopt_unlink_after` flag; `mismExit` and `shortExit` for the two
`exit(EXIT_FAILURE)` paths, a mismatch clearing `gopt_unlink_after`. -/
inductive ReadResult where
  | success (filesRead : Nat) (unlinkAfterFlag : Bool)
  | mismExit (filenum blocknum offset : Nat) (unlinkAfterFlag : Bool)
  | shortExit (filenum : Nat) (unlinkAfterFlag : Bool)
  deriving DecidableEq, Repr

/-- The file loop `while (!done)` of `read_randfiles` (default path):
opening file `filenum` fails exactly when it is absent from `files`;
`rnd = g_seed + (++filenum)` in `unsigned` arithmetic. -/
def readFilesGo (gseed fsize : Nat) (files : List (List Nat)) (lastSize : Nat) (uA : Bool) :
    Nat → Nat → ReadResult
  | 0, filenum => .success filenum uA
  | fuel + 1, filenum =>
    match files[filenum]? with
    | none => .success filenum uA
    | some content =>
      match readBlocks content (filenum + 1) files.length lastSize fsize 0
          ((gseed + (filenum + 1)) % U32) 0 with
      | .mism b off => .mismExit filenum b off false
      | .short _ => .shortExit filenum uA
      | .ok _ true => .success (filenum + 1) uA
      | .ok _ false => readFilesGo gseed fsize files lastSize uA fuel (filenum + 1)

/-- `read_randfiles` over the stored `files` with recorded last-file-size
marker `lastSize` and the current `gopt_unlink_after` flag `uA`. -/
def read_randfiles (gseed fsize : Nat) (files : List (List Nat)) (lastSize : Nat)
    (uA : Bool) : ReadResult :=
  readFilesGo gseed fsize files lastSize uA (files.length + 1) 0

/-! ## The run controller: `main`

`main` runs `gopt_repeat` iterations; in each, a read-only run verifies
and optionally cleans, a normal run cleans old files, fills, verifies
unless `-N` was given, and cleans after if `-u` was given.  A fatal
verification failure (`exit(EXIT_FAILURE)` inside `read_randfiles`)
terminates the process, cutting the phase trace short. -/
/-- Phases of `main`'s repetition loop. -/
inductive Phase where
  | cleanOld
  | fill
  | verify
  | cleanAfter
  deriving DecidableEq, Repr

/-- The configuration bits of `main` that steer the phase order. -/
structure Config where
  readonly : Bool
  skipVerify : Bool
  unlinkAfter : Bool
  repeats : Nat
  deriving DecidableEq, Repr

/-- The phase trace of `main`'s loop `for (r = 0; r < gopt_repeat; ++r)`:
`oracle r` tells whether `read_randfiles` hits `exit(EXIT_FAILURE)` in
iteration `r` (a mismatch or an unexpectedly short file), which ends the
whole process. -/
def mainLoop (cfg : Config) (oracle : Nat → Bool) : Nat → Nat → List Phase
  | 0, _ => []
  | n + 1, r =>
    if cfg.readonly then
      if oracle r then [.verify]
      else [.verify] ++ (if cfg.unlinkAfter then [.cleanAfter] else []) ++
        mainLoop cfg oracle n (r + 1)
    else
      if cfg.skipVerify then
        [.cleanOld, .fill] ++ (if cfg.unlinkAfter then [.cleanAfter] else []) ++
          mainLoop cfg oracle n (r + 1)
      else if oracle r then [.cleanOld, .fill, .verify]
      else [.cleanOld, .fill, .verify] ++
        (if cfg.unlinkAfter then [.cleanAfter] else []) ++ mainLoop cfg oracle n (r + 1)

/-- The phase trace of one `main` invocation. -/
def mainTrace (cfg : Config) (oracle : Nat → Bool) : List Phase :=
  mainLoop cfg oracle cfg.repeats 0

attribute [irreducible] blockList lcgBlockAdvance

lemma U64_pos : 0 < U64 := by decide

lemma lcgStep_lt (s : Nat) : lcgStep s < U64 := Nat.mod_lt _ U64_pos

lemma lcgOut_lt (seed k : Nat) : lcgOut seed k < U64 := by
  have h : lcgStep^[k + 1] seed = lcgStep (lcgStep^[k] seed) :=
    Function.iterate_succ_apply' _ _ _
  rw [lcgOut, h]
  exact lcgStep_lt _

lemma lcgList_length (seed n : Nat) : (lcgList seed n).length = n := by
  simp [lcgList]

lemma lcgOut_succ_left (seed k : Nat) :
    lcgOut seed (k + 1) = lcgOut (lcgStep seed) k := by
  rw [lcgOut, lcgOut, Function.iterate_succ_apply]

lemma lcgList_succ (seed n : Nat) :
    lcgList seed (n + 1) = lcgStep seed :: lcgList (lcgStep seed) n := by
  rw [lcgList, List.range_succ_eq_map, List.map_cons, List.map_map]
  have hfun : lcgOut seed ∘ Nat.succ = lcgOut (lcgStep seed) := by
    funext k
    exact lcgOut_succ_left seed k
  have h0 : lcgOut seed 0 = lcgStep seed := by
    rw [lcgOut, Function.iterate_one]
  rw [hfun, h0, lcgList]

lemma lcgA_mod4 : lcgA % 4 = 1 := by decide

lemma pow_lcgA_mod4 (k : Nat) : lcgA ^ k % 4 = 1 := by
  induction k with
  | zero => rfl
  | succ n ih => rw [pow_succ, Nat.mul_mod, ih, lcgA_mod4]

lemma geomS_parity (m : Nat) : geomS m % 2 = m % 2 := by
  rw [geomS, Finset.sum_nat_mod]
  have h : ∀ i ∈ Finset.range m, lcgA ^ i % 2 = 1 := by
    intro i _
    have := pow_lcgA_mod4 i
    omega
  rw [Finset.sum_congr rfl h, Finset.sum_const, Finset.card_range, smul_eq_mul,
    mul_one]

lemma geomS_double (k : Nat) : geomS (2 * k) = geomS k * (1 + lcgA ^ k) := by
  rw [geomS, two_mul, Finset.sum_range_add]
  have h : ∀ x, lcgA ^ (k + x) = lcgA ^ k * lcgA ^ x := fun x => pow_add _ _ _
  simp only [h, ← Finset.mul_sum]
  rw [geomS]
  ring

lemma one_add_pow_lcgA (k : Nat) :
    1 + lcgA ^ k = 2 * ((1 + lcgA ^ k) / 2) ∧ ((1 + lcgA ^ k) / 2) % 2 = 1 := by
  have := pow_lcgA_mod4 k
  omega

/-- Two-adic valuation transfer: a power of two dividing the geometric sum
also divides its length.  This is the full-period core of the generator. -/
lemma pow_two_dvd_geomS (j : Nat) :
    ∀ m, 0 < m → 2 ^ j ∣ geomS m → 2 ^ j ∣ m := by
  induction j with
  | zero => intro m _ _; simp
  | succ j ih =>
    intro m hm hdvd
    rcases Nat.even_or_odd m with he | ho
    · obtain ⟨k, hk⟩ := he
      have hk2 : m = 2 * k := by omega
      obtain ⟨ht, htodd⟩ := one_add_pow_lcgA k
      rw [hk2, geomS_double, ht] at hdvd
      have hre : geomS k * (2 * ((1 + lcgA ^ k) / 2)) =
          geomS k * ((1 + lcgA ^ k) / 2) * 2 := by ring
      rw [hre, pow_succ] at hdvd
      have h2 : 2 ^ j ∣ geomS k * ((1 + lcgA ^ k) / 2) :=
        (Nat.mul_dvd_mul_iff_right (by norm_num : 0 < 2)).mp hdvd
      have hcop : Nat.Coprime (2 ^ j) ((1 + lcgA ^ k) / 2) :=
        Nat.Coprime.pow_left _
          ((Nat.prime_two.coprime_iff_not_dvd).mpr (by omega))
      have h3 : 2 ^ j ∣ geomS k := (Nat.Coprime.dvd_of_dvd_mul_right hcop) h2
      have hk0 : 0 < k := by omega
      have h4 := ih k hk0 h3
      rw [hk2, pow_succ, mul_comm (2 ^ j) 2]
      exact Nat.mul_dvd_mul_left 2 h4
    · exfalso
      obtain ⟨t, ht⟩ := ho
      have h1 : geomS m % 2 = 1 := by rw [geomS_parity]; omega
      have h2 : 2 ∣ geomS m := dvd_trans (dvd_pow_self 2 (Nat.succ_ne_zero j)) hdvd
      omega

lemma lcgStep_cast (s : Nat) : ((lcgStep s : Nat) : ZMod U64) = lcgStepZ (s : ZMod U64) := by
  rw [lcgStep, lcgStepZ, ZMod.natCast_mod]
  push_cast
  ring

lemma lcgStep_iterate_cast (m s : Nat) :
    ((lcgStep^[m] s : Nat) : ZMod U64) = lcgStepZ^[m] (s : ZMod U64) := by
  induction m with
  | zero => rfl
  | succ n ih =>
    rw [Function.iterate_succ_apply', Function.iterate_succ_apply', lcgStep_cast, ih]

lemma lcgStepZ_iterate (m : Nat) (x : ZMod U64) :
    lcgStepZ^[m] x = (lcgA : ZMod U64) ^ m * x +
      (lcgC : ZMod U64) * ∑ i ∈ Finset.range m, (lcgA : ZMod U64) ^ i := by
  induction m with
  | zero => simp
  | succ n ih =>
    rw [Function.iterate_succ_apply', ih, lcgStepZ, geom_sum_succ]
    ring

lemma lcgA_sub_one_mul_even (s : Nat) : ((lcgA - 1) * s + lcgC) % 2 = 1 := by
  have h1 : (lcgA - 1) % 2 = 0 := by decide
  have h2 : lcgC % 2 = 1 := by decide
  have h3 : ((lcgA - 1) * s) % 2 = 0 := by
    rw [Nat.mul_mod, h1]
    simp
  omega

lemma unit_shift (s : Nat) : IsUnit ((((lcgA - 1) * s + lcgC : Nat)) : ZMod U64) := by
  rw [ZMod.isUnit_iff_coprime]
  have hodd := lcgA_sub_one_mul_even s
  have hc2 : Nat.Coprime ((lcgA - 1) * s + lcgC) 2 :=
    Nat.coprime_comm.mp ((Nat.prime_two.coprime_iff_not_dvd).mpr (by omega))
  exact Nat.Coprime.pow_right 64 hc2

/-- No iterate of fewer than `2 ^ 64` steps returns the generator to its
starting state, hence no output item of any feasible run equals the seed. -/
lemma lcg_iterate_ne (s m : Nat) (hm : 0 < m) (hlt : m < U64) :
    lcgStep^[m] s ≠ s := by
  intro heq
  have hz : lcgStepZ^[m] (s : ZMod U64) = (s : ZMod U64) := by
    rw [← lcgStep_iterate_cast, heq]
  rw [lcgStepZ_iterate] at hz
  set x : ZMod U64 := (s : ZMod U64) with hx
  set SZ : ZMod U64 := ∑ i ∈ Finset.range m, (lcgA : ZMod U64) ^ i with hSZ
  have hgs : SZ * ((lcgA : ZMod U64) - 1) = (lcgA : ZMod U64) ^ m - 1 :=
    geom_sum_mul _ _
  have hkey : SZ * (((lcgA : ZMod U64) - 1) * x + (lcgC : ZMod U64)) = 0 := by
    linear_combination x * hgs + hz
  have hcast : ((((lcgA - 1) * s + lcgC : Nat)) : ZMod U64) =
      ((lcgA : ZMod U64) - 1) * x + (lcgC : ZMod U64) := by
    push_cast [Nat.cast_sub (by decide : 1 ≤ lcgA)]
    ring
  have hunit : IsUnit (((lcgA : ZMod U64) - 1) * x + (lcgC : ZMod U64)) := by
    rw [← hcast]; exact unit_shift s
  have hSZ0 : SZ = 0 := (IsUnit.mul_left_eq_zero hunit).mp hkey
  have hSnat : ((geomS m : Nat) : ZMod U64) = 0 := by
    rw [geomS]
    push_cast
    exact hSZ0
  have hdvd : U64 ∣ geomS m := (ZMod.natCast_zmod_eq_zero_iff_dvd _ _).mp hSnat
  have hdvd2 : 2 ^ 64 ∣ m := pow_two_dvd_geomS 64 m hm (by rwa [U64] at hdvd)
  have : U64 ≤ m := Nat.le_of_dvd hm (by rwa [U64])
  omega

lemma itemToBytes_length (x : Nat) : (itemToBytes x).length = 8 := rfl

lemma itemsToBytes_nil : itemsToBytes [] = [] := rfl

lemma itemsToBytes_cons (x : Nat) (xs : List Nat) :
    itemsToBytes (x :: xs) = itemToBytes x ++ itemsToBytes xs := by
  simp [itemsToBytes]

lemma itemsToBytes_append (xs ys : List Nat) :
    itemsToBytes (xs ++ ys) = itemsToBytes xs ++ itemsToBytes ys := by
  simp [itemsToBytes]

lemma itemsToBytes_length (xs : List Nat) : (itemsToBytes xs).length = 8 * xs.length := by
  induction xs with
  | nil => rfl
  | cons x xs ih =>
    rw [itemsToBytes_cons, List.length_append, itemToBytes_length, ih, List.length_cons]
    ring

lemma bytesToItems_short : ∀ bs : List Nat, bs.length < 8 → bytesToItems bs = []
  | [], _ => rfl
  | [_], _ => rfl
  | [_, _], _ => rfl
  | [_, _, _], _ => rfl
  | [_, _, _, _], _ => rfl
  | [_, _, _, _, _], _ => rfl
  | [_, _, _, _, _, _], _ => rfl
  | [_, _, _, _, _, _, _], _ => rfl
  | _ :: _ :: _ :: _ :: _ :: _ :: _ :: _ :: _, h => absurd h (by simp)

lemma bytesToItems_encode_cons (x : Nat) (hx : x < U64) (rest : List Nat) :
    bytesToItems (itemToBytes x ++ rest) = x :: bytesToItems rest := by
  rw [itemToBytes]
  show (x % 256 + 2 ^ 8 * (x / 2 ^ 8 % 256) + 2 ^ 16 * (x / 2 ^ 16 % 256) +
      2 ^ 24 * (x / 2 ^ 24 % 256) + 2 ^ 32 * (x / 2 ^ 32 % 256) +
      2 ^ 40 * (x / 2 ^ 40 % 256) + 2 ^ 48 * (x / 2 ^ 48 % 256) +
      2 ^ 56 * (x / 2 ^ 56 % 256)) :: bytesToItems rest = x :: bytesToItems rest
  have hx64 : x < 2 ^ 64 := hx
  congr 1
  omega

lemma bytesToItems_itemsToBytes (xs : List Nat) (h : ∀ x ∈ xs, x < U64) :
    bytesToItems (itemsToBytes xs) = xs := by
  induction xs with
  | nil => rfl
  | cons x xs ih =>
    rw [itemsToBytes_cons, bytesToItems_encode_cons x (h x (by simp)),
      ih (fun y hy => h y (by simp [hy]))]

lemma bytesToItems_encode_append (tail : List Nat) : ∀ (ws : List Nat),
    (∀ x ∈ ws, x < U64) →
    bytesToItems (itemsToBytes ws ++ tail) = ws ++ bytesToItems tail := by
  intro ws
  induction ws with
  | nil =>
    intro h
    rw [itemsToBytes_nil, List.nil_append, List.nil_append]
  | cons x xs ih =>
    intro h
    rw [itemsToBytes_cons, List.append_assoc, bytesToItems_encode_cons x (h x (by simp)),
      ih (fun y hy => h y (by simp [hy])), List.cons_append]

lemma bytesToItems_take_encode (xs : List Nat) (h : ∀ x ∈ xs, x < U64) :
    ∀ m, bytesToItems ((itemsToBytes xs).take m) = xs.take (m / 8) := by
  induction xs with
  | nil => intro m; simp [itemsToBytes_nil, bytesToItems]
  | cons x xs ih =>
    intro m
    rw [itemsToBytes_cons, List.take_append_eq_append_take, itemToBytes_length]
    by_cases hm : 8 ≤ m
    · have h8 : (itemToBytes x).take m = itemToBytes x :=
        List.take_of_length_le (by rw [itemToBytes_length]; omega)
      rw [h8, bytesToItems_encode_cons x (h x (by simp)),
        ih (fun y hy => h y (by simp [hy])) (m - 8)]
      have hdiv : m / 8 = (m - 8) / 8 + 1 := by omega
      rw [hdiv, List.take_succ_cons]
    · have hdiv : m / 8 = 0 := by omega
      rw [hdiv, List.take_zero]
      have hlen : ((itemToBytes x).take m ++ (itemsToBytes xs).take (m - 8)).length < 8 := by
        have hm0 : m - 8 = 0 := by omega
        rw [hm0]
        simp [itemToBytes_length]
        omega
      exact bytesToItems_short _ hlen

lemma itemsToBytes_take (a : Nat) (xs : List Nat) :
    (itemsToBytes xs).take (8 * a) = itemsToBytes (xs.take a) := by
  induction xs generalizing a with
  | nil => simp [itemsToBytes_nil]
  | cons x xs ih =>
    cases a with
    | zero => simp [itemsToBytes_nil]
    | succ a =>
      rw [itemsToBytes_cons, List.take_succ_cons, itemsToBytes_cons,
        List.take_append_eq_append_take, itemToBytes_length]
      have h1 : (itemToBytes x).take (8 * (a + 1)) = itemToBytes x :=
        List.take_of_length_le (by rw [itemToBytes_length]; omega)
      have h2 : 8 * (a + 1) - 8 = 8 * a := by omega
      rw [h1, h2, ih]

lemma itemsToBytes_drop (a : Nat) (xs : List Nat) :
    (itemsToBytes xs).drop (8 * a) = itemsToBytes (xs.drop a) := by
  induction xs generalizing a with
  | nil => simp [itemsToBytes_nil]
  | cons x xs ih =>
    cases a with
    | zero => simp [itemsToBytes_cons]
    | succ a =>
      rw [itemsToBytes_cons, List.drop_succ_cons, List.drop_append_eq_append_drop,
        itemToBytes_length]
      have h1 : (itemToBytes x).drop (8 * (a + 1)) = [] :=
        List.drop_eq_nil_iff.mpr (by rw [itemToBytes_length]; omega)
      have h2 : 8 * (a + 1) - 8 = 8 * a := by omega
      rw [h1, h2, ih, List.nil_append]

lemma blockList_def (rnd : Nat) : blockList rnd = lcgList rnd blockItems := by
  unfold blockList
  rfl

lemma lcgBlockAdvance_def (rnd : Nat) : lcgBlockAdvance rnd = lcgStep^[blockItems] rnd := by
  unfold lcgBlockAdvance
  rfl

lemma blockBytes_eq : blockBytes = 8 * blockItems := by decide

lemma blockBytes_val : blockBytes = 1048576 := rfl

lemma lcgOut_add (seed a j : Nat) : lcgOut seed (a + j) = lcgOut (lcgStep^[a] seed) j := by
  rw [lcgOut, lcgOut, ← Function.iterate_add_apply]
  congr 1
  omega

lemma lcgList_add (seed a b : Nat) :
    lcgList seed (a + b) = lcgList seed a ++ lcgList (lcgStep^[a] seed) b := by
  rw [lcgList, lcgList, lcgList, List.range_add, List.map_append, List.map_map]
  congr 1
  apply List.map_congr_left
  intro j _
  exact lcgOut_add seed a j

lemma fullFileBytes_length (rnd fsize : Nat) :
    (fullFileBytes rnd fsize).length = fsize * blockBytes := by
  rw [fullFileBytes, itemsToBytes_length, lcgList_length, blockBytes_eq]
  ring

lemma block_bytes_of_items (rnd : Nat) :
    (itemsToBytes (blockList rnd)).length = blockBytes := by
  rw [blockList_def, itemsToBytes_length, lcgList_length, blockBytes_eq]

lemma lcgList_block_split (rnd b : Nat) :
    lcgList rnd ((b + 1) * blockItems) =
      blockList rnd ++ lcgList (lcgBlockAdvance rnd) (b * blockItems) := by
  rw [blockList_def, lcgBlockAdvance_def,
    show (b + 1) * blockItems = blockItems + b * blockItems by ring, lcgList_add]

lemma writeFileBlocks_done : ∀ (b rnd rem : Nat),
    writeFileBlocks rnd b true rem = ([], 0, true, rem) := by
  intro b
  induction b with
  | zero => intro rnd rem; rfl
  | succ b ih =>
    intro rnd rem
    rw [writeFileBlocks]
    exact ih _ _

/-- A capacity covering all `b` blocks: every block is stored in full, no
write error occurs. -/
lemma writeFileBlocks_full : ∀ (b rnd rem : Nat), b * blockBytes ≤ rem →
    writeFileBlocks rnd b false rem =
      (itemsToBytes (lcgList rnd (b * blockItems)), b * blockBytes, false,
        rem - b * blockBytes) := by
  intro b
  induction b with
  | zero =>
    intro rnd rem _
    simp [writeFileBlocks, lcgList, itemsToBytes_nil]
  | succ b ih =>
    intro rnd rem hrem
    rw [blockBytes_val] at hrem
    have hB : ¬rem < blockBytes := by rw [blockBytes_val]; omega
    have htake : (itemsToBytes (blockList rnd)).take blockBytes =
        itemsToBytes (blockList rnd) :=
      List.take_of_length_le (le_of_eq (block_bytes_of_items rnd))
    rw [writeFileBlocks, if_neg hB,
      ih _ (rem - blockBytes) (by rw [blockBytes_val]; omega)]
    dsimp only
    rw [htake, lcgList_block_split, itemsToBytes_append]
    refine congrArg₂ Prod.mk rfl (congrArg₂ Prod.mk (by ring) (congrArg₂ Prod.mk rfl ?_))
    rw [blockBytes_val]
    omega

/-- A capacity short of `b` blocks: the stored bytes are the first `rem`
bytes of the generated stream, `done` is raised, the capacity is exhausted. -/
lemma writeFileBlocks_short : ∀ (b rnd rem : Nat), rem < b * blockBytes →
    writeFileBlocks rnd b false rem =
      ((itemsToBytes (lcgList rnd (b * blockItems))).take rem, rem, true, 0) := by
  intro b
  induction b with
  | zero =>
    intro rnd rem h
    omega
  | succ b ih =>
    intro rnd rem hrem
    rw [blockBytes_val] at hrem
    by_cases hB : rem < blockBytes
    · rw [writeFileBlocks, if_pos hB, writeFileBlocks_done]
      dsimp only
      rw [lcgList_block_split, itemsToBytes_append, List.take_append_eq_append_take,
        block_bytes_of_items]
      have h0 : rem - blockBytes = 0 := by omega
      rw [h0, List.take_zero]
      simp
    · have htake : (itemsToBytes (blockList rnd)).take blockBytes =
          itemsToBytes (blockList rnd) :=
        List.take_of_length_le (le_of_eq (block_bytes_of_items rnd))
      have htake2 : (itemsToBytes (blockList rnd)).take rem =
          itemsToBytes (blockList rnd) :=
        List.take_of_length_le (by rw [block_bytes_of_items]; omega)
      rw [writeFileBlocks, if_neg hB,
        ih _ (rem - blockBytes) (by rw [blockBytes_val] at hB ⊢; omega)]
      dsimp only
      rw [htake, lcgList_block_split, itemsToBytes_append,
        List.take_append_eq_append_take, block_bytes_of_items, htake2]
      refine congrArg₂ Prod.mk rfl (congrArg₂ Prod.mk ?_ (congrArg₂ Prod.mk rfl rfl))
      omega

lemma fullFiles_length (gseed fsize : Nat) :
    ∀ fuel fn, (fullFiles gseed fsize fuel fn).length = fuel := by
  intro fuel
  induction fuel with
  | zero => intro fn; rfl
  | succ fuel ih =>
    intro fn
    rw [fullFiles, List.length_cons, ih]

lemma fullFiles_get (gseed fsize : Nat) : ∀ fuel fn k, k < fuel →
    (fullFiles gseed fsize fuel fn)[k]? =
      some (fullFileBytes ((gseed + (fn + k + 1)) % U32) fsize) := by
  intro fuel
  induction fuel with
  | zero => intro fn k h; omega
  | succ fuel ih =>
    intro fn k hk
    cases k with
    | zero => rw [fullFiles]; simp
    | succ k =>
      rw [fullFiles, List.getElem?_cons_succ, ih (fn + 1) k (by omega)]
      have he : fn + 1 + k + 1 = fn + (k + 1) + 1 := by omega
      rw [he]

/-- No write error: a capacity covering all `fuel` files makes the file
loop write `fuel` full files; the loop ends at the file limit with
`done = 0` and `g_last_filesize` holding the (truncated) full size. -/
lemma writeFilesGo_noError (gseed fsize : Nat) : ∀ (fuel fn lfs rem : Nat),
    fuel * (fsize * blockBytes) ≤ rem →
    writeFilesGo gseed fsize fuel fn lfs rem =
      (fullFiles gseed fsize fuel fn,
        if fuel = 0 then lfs else (fsize * blockBytes) % U32, false) := by
  intro fuel
  induction fuel with
  | zero => intro fn lfs rem _; simp [writeFilesGo, fullFiles]
  | succ fuel ih =>
    intro fn lfs rem hrem
    rw [Nat.succ_mul] at hrem
    have hD : fsize * blockBytes ≤ rem := by omega
    rw [writeFilesGo, writeFileBlocks_full fsize _ rem hD]
    dsimp only
    rw [ih (fn + 1) ((fsize * blockBytes) % U32) (rem - fsize * blockBytes) (by omega)]
    dsimp only
    rw [fullFiles]
    refine congrArg₂ Prod.mk rfl (congrArg₂ Prod.mk ?_ rfl)
    rw [ite_self, if_neg (Nat.succ_ne_zero fuel)]

/-- Disk full: a capacity short of the `fuel`-file total produces
`rem / D` full files and one partial file of exactly the remaining
`rem % D` bytes (`D` the full file size); `done` is raised and
`g_last_filesize` records the partial byte count (truncated). -/
lemma writeFilesGo_diskFull (gseed fsize : Nat) : ∀ (fuel fn lfs rem : Nat),
    rem < fuel * (fsize * blockBytes) →
    writeFilesGo gseed fsize fuel fn lfs rem =
      (fullFiles gseed fsize (rem / (fsize * blockBytes)) fn ++
        [(fullFileBytes ((gseed + (fn + rem / (fsize * blockBytes) + 1)) % U32)
            fsize).take (rem % (fsize * blockBytes))],
        (rem % (fsize * blockBytes)) % U32, true) := by
  intro fuel
  induction fuel with
  | zero => intro fn lfs rem h; omega
  | succ fuel ih =>
    intro fn lfs rem hrem
    rcases Nat.eq_zero_or_pos (fsize * blockBytes) with h0 | hD0
    · rw [h0, Nat.mul_zero] at hrem
      omega
    rw [Nat.succ_mul] at hrem
    by_cases hD : rem < fsize * blockBytes
    · have hq : rem / (fsize * blockBytes) = 0 := Nat.div_eq_of_lt hD
      have hm : rem % (fsize * blockBytes) = rem := Nat.mod_eq_of_lt hD
      rw [writeFilesGo, writeFileBlocks_short fsize _ rem hD]
      dsimp only
      rw [hq, hm, fullFiles, List.nil_append]
      rfl
    · have hD2 : fsize * blockBytes ≤ rem := Nat.not_lt.mp hD
      have hq : rem / (fsize * blockBytes) =
          (rem - fsize * blockBytes) / (fsize * blockBytes) + 1 :=
        Nat.div_eq_sub_div hD0 hD2
      have hm : rem % (fsize * blockBytes) =
          (rem - fsize * blockBytes) % (fsize * blockBytes) :=
        Nat.mod_eq_sub_mod hD2
      rw [writeFilesGo, writeFileBlocks_full fsize _ rem hD2]
      dsimp only
      rw [ih (fn + 1) ((fsize * blockBytes) % U32) (rem - fsize * blockBytes) (by omega)]
      dsimp only
      rw [hq, hm, fullFiles, List.cons_append]
      have he : fn + ((rem - fsize * blockBytes) / (fsize * blockBytes) + 1) + 1 =
          fn + 1 + (rem - fsize * blockBytes) / (fsize * blockBytes) + 1 := by omega
      rw [he]
      rfl

lemma checkBlock_match : ∀ (n rnd i : Nat),
    checkBlock (lcgList rnd n) rnd i = (none, lcgStep^[n] rnd) := by
  intro n
  induction n with
  | zero => intro rnd i; rfl
  | succ n ih =>
    intro rnd i
    rw [lcgList_succ, checkBlock, if_pos rfl, ih (lcgStep rnd) (i + 1),
      ← Function.iterate_succ_apply]

lemma checkBlock_first_diff : ∀ (m rnd acc y : Nat) (ys : List Nat),
    y ≠ lcgOut rnd m →
    checkBlock (lcgList rnd m ++ y :: ys) rnd acc = (some (acc + m), lcgStep^[m + 1] rnd) := by
  intro m
  induction m with
  | zero =>
    intro rnd acc y ys hy
    have hy0 : y ≠ lcgStep rnd := by
      intro h
      exact hy (by rw [h, lcgOut, Function.iterate_one])
    rw [show lcgList rnd 0 = [] from rfl, List.nil_append, checkBlock, if_neg hy0,
      Function.iterate_one, Nat.add_zero]
  | succ m ih =>
    intro rnd acc y ys hy
    rw [lcgList_succ, List.cons_append, checkBlock, if_pos rfl,
      ih (lcgStep rnd) (acc + 1) y ys (by rw [← lcgOut_succ_left]; exact hy)]
    rw [← Function.iterate_succ_apply]
    refine congrArg₂ Prod.mk (congrArg some (by omega)) rfl

lemma lcgList_mem_lt (seed n : Nat) : ∀ x ∈ lcgList seed n, x < U64 := by
  intro x hx
  rw [lcgList] at hx
  obtain ⟨j, _, hj⟩ := List.mem_map.mp hx
  rw [← hj]
  exact lcgOut_lt seed j

lemma lcgList_take (seed n m : Nat) : (lcgList seed n).take m = lcgList seed (min m n) := by
  rw [lcgList, lcgList, ← List.map_take, List.take_range]

lemma blockList_roundtrip (rnd : Nat) : bytesToItems (itemsToBytes (blockList rnd)) = blockList rnd := by
  rw [blockList_def]
  exact bytesToItems_itemsToBytes _ (lcgList_mem_lt rnd blockItems)

/-- Reading a full, uncorrupted file: if the stored bytes from `rtotal` on
are exactly the `bleft` blocks generated from `rnd`, and the shortened
`read_size` branch stays off, the block loop verifies every block with no
mismatch, no end-of-file, and `done` still clear. -/
lemma readBlocks_full_match (fn1 limitN lastSize : Nat) :
    ∀ (bleft : Nat) (content : List Nat) (blocknum rnd rtotal : Nat),
    content.length = rtotal + bleft * blockBytes →
    content.drop rtotal = itemsToBytes (lcgList rnd (bleft * blockItems)) →
    (∀ b, blocknum ≤ b → b < blocknum + bleft →
        ¬(fn1 = limitN ∧ lastSize ≠ UINTMAX ∧ lastSize < b * blockBytes)) →
    readBlocks content fn1 limitN lastSize bleft blocknum rnd rtotal =
      .ok (rtotal + bleft * blockBytes) false := by
  intro bleft
  induction bleft with
  | zero =>
    intro content blocknum rnd rtotal _ _ _
    rw [readBlocks]
    simp
  | succ bleft ih =>
    intro content blocknum rnd rtotal hlen hdrop hbr
    rw [readBlocks]
    have hC : ¬(fn1 = limitN ∧ lastSize ≠ UINTMAX ∧ lastSize < blocknum * blockBytes) :=
      hbr blocknum (le_refl _) (by omega)
    rw [if_neg hC]
    have hrem : content.length - rtotal = blockBytes + bleft * blockBytes := by
      rw [hlen, Nat.succ_mul]
      omega
    have hrb : min blockBytes (content.length - rtotal) = blockBytes := by
      rw [hrem]
      omega
    rw [hrb, if_neg (by decide : ¬(blockBytes = 0))]
    have hdrop2 : content.drop rtotal =
        itemsToBytes (blockList rnd) ++
          itemsToBytes (lcgList (lcgBlockAdvance rnd) (bleft * blockItems)) := by
      rw [hdrop, lcgList_block_split, itemsToBytes_append]
    have hchunk : (content.drop rtotal).take blockBytes = itemsToBytes (blockList rnd) := by
      rw [hdrop2]
      exact List.take_left' (block_bytes_of_items rnd)
    rw [hchunk, blockList_roundtrip, blockList_def, checkBlock_match, ← lcgBlockAdvance_def]
    dsimp only
    have hlen2 : content.length = (rtotal + blockBytes) + bleft * blockBytes := by
      rw [hlen, Nat.succ_mul]
      omega
    have hdrop3 : content.drop (rtotal + blockBytes) =
        itemsToBytes (lcgList (lcgBlockAdvance rnd) (bleft * blockItems)) := by
      rw [← List.drop_drop, hdrop2, List.drop_left' (block_bytes_of_items rnd)]
    rw [ih content (blocknum + 1) (lcgBlockAdvance rnd) (rtotal + blockBytes) hlen2 hdrop3
      (fun b hb1 hb2 => hbr b (by omega) (by omega))]
    have he : rtotal + blockBytes + bleft * blockBytes = rtotal + (bleft + 1) * blockBytes := by
      rw [Nat.succ_mul]
      omega
    rw [he]

/-- Reading the expected last file when it holds `w` bytes of the generated
stream with `w` below the nominal size and recorded as the last-file-size
marker: every stored byte verifies, and the loop either ends on a clean
end-of-file (`done` set) or by exhausting the block count. -/
lemma readBlocks_partial_match (fn1 w : Nat) :
    ∀ (bleft : Nat) (content : List Nat) (blocknum rnd rtotal : Nat),
    content.length = w →
    rtotal = min (blocknum * blockBytes) w →
    w ≤ blocknum * blockBytes + bleft * blockBytes →
    content.drop rtotal =
      (itemsToBytes (lcgList rnd (bleft * blockItems))).take (w - rtotal) →
    readBlocks content fn1 fn1 w bleft blocknum rnd rtotal = .ok w true ∨
      readBlocks content fn1 fn1 w bleft blocknum rnd rtotal = .ok w false := by
  intro bleft
  induction bleft with
  | zero =>
    intro content blocknum rnd rtotal hlen hrt hwb _
    right
    rw [readBlocks]
    have hrw : rtotal = w := by omega
    rw [hrw]
  | succ bleft ih =>
    intro content blocknum rnd rtotal hlen hrt hwb hdrop
    by_cases h0 : rtotal = w
    · left
      rw [readBlocks, hlen, h0, Nat.sub_self, Nat.min_zero, if_pos rfl,
        if_neg (by simp : ¬(fn1 ≠ fn1 ∨ (w ≠ UINTMAX ∧ w ≠ w)))]
    · have hrtlt : rtotal < w := by omega
      have hbn : blocknum * blockBytes = rtotal := by omega
      rw [readBlocks]
      have hC : ¬(fn1 = fn1 ∧ w ≠ UINTMAX ∧ w < blocknum * blockBytes) := by
        intro hc
        omega
      rw [if_neg hC, hlen]
      have hrbpos : ¬(min blockBytes (w - rtotal) = 0) := by
        rw [blockBytes_val]
        omega
      rw [if_neg hrbpos]
      by_cases hfull : blockBytes ≤ w - rtotal
      · have hrb : min blockBytes (w - rtotal) = blockBytes := min_eq_left hfull
        rw [hrb]
        have hchunk : (content.drop rtotal).take blockBytes =
            itemsToBytes (blockList rnd) := by
          rw [hdrop, List.take_take, min_eq_left hfull, lcgList_block_split,
            itemsToBytes_append]
          exact List.take_left' (block_bytes_of_items rnd)
        rw [hchunk, blockList_roundtrip, blockList_def, checkBlock_match,
          ← lcgBlockAdvance_def]
        dsimp only
        have hrt2 : rtotal + blockBytes = min ((blocknum + 1) * blockBytes) w := by
          rw [Nat.succ_mul, hbn]
          omega
        have hwb2 : w ≤ (blocknum + 1) * blockBytes + bleft * blockBytes := by
          rw [Nat.succ_mul]
          rw [Nat.succ_mul] at hwb
          omega
        have hdrop2 : content.drop (rtotal + blockBytes) =
            (itemsToBytes (lcgList (lcgBlockAdvance rnd) (bleft * blockItems))).take
              (w - (rtotal + blockBytes)) := by
          rw [← List.drop_drop, hdrop, List.drop_take, lcgList_block_split,
            itemsToBytes_append, List.drop_left' (block_bytes_of_items rnd),
            show w - rtotal - blockBytes = w - (rtotal + blockBytes) by omega]
        exact ih content (blocknum + 1) (lcgBlockAdvance rnd) (rtotal + blockBytes)
          hlen hrt2 hwb2 hdrop2
      · have hrb : min blockBytes (w - rtotal) = w - rtotal :=
          min_eq_right (le_of_lt (Nat.not_le.mp hfull))
        rw [hrb]
        have hchunk : (content.drop rtotal).take (w - rtotal) =
            (itemsToBytes (lcgList rnd ((bleft + 1) * blockItems))).take (w - rtotal) := by
          rw [hdrop, List.take_take, min_self]
        have hdec : bytesToItems
            (((itemsToBytes (lcgList rnd ((bleft + 1) * blockItems))).take (w - rtotal))) =
            lcgList rnd (min ((w - rtotal) / 8) ((bleft + 1) * blockItems)) := by
          rw [bytesToItems_take_encode _ (lcgList_mem_lt rnd _), lcgList_take]
        rw [hchunk, hdec, checkBlock_match]
        dsimp only
        have hsum : rtotal + (w - rtotal) = w := by omega
        rw [hsum]
        have hrt2 : w = min ((blocknum + 1) * blockBytes) w := by
          rw [Nat.succ_mul, hbn]
          rw [blockBytes_val] at *
          omega
        have hwb2 : w ≤ (blocknum + 1) * blockBytes + bleft * blockBytes := by
          rw [Nat.succ_mul]
          rw [Nat.succ_mul] at hwb
          omega
        have hdrop2 : content.drop w =
            (itemsToBytes (lcgList
              (lcgStep^[min ((w - rtotal) / 8) ((bleft + 1) * blockItems)] rnd)
              (bleft * blockItems))).take (w - w) := by
          rw [Nat.sub_self, List.take_zero]
          exact List.drop_eq_nil_iff.mpr (le_of_eq hlen)
        exact ih content (blocknum + 1)
          (lcgStep^[min ((w - rtotal) / 8) ((bleft + 1) * blockItems)] rnd) w
          hlen hrt2 hwb2 hdrop2

/-- A corrupted full-size file: if the stored items agree with the
regenerated stream up to item `i0` and differ at `i0`, the block loop
stops inside block `i0 / blockItems` and reports a mismatch at offset
`(i0 % blockItems) * sizeof(int)` — `sizeof(int)`, not
`sizeof(item_type)`. -/
lemma readBlocks_mismatch (fn1 limitN lastSize : Nat) :
    ∀ (bleft : Nat) (content : List Nat) (blocknum rnd rtotal i0 y : Nat) (ys : List Nat),
    content.length = rtotal + bleft * blockBytes →
    content.drop rtotal = itemsToBytes (lcgList rnd i0 ++ y :: ys) →
    i0 + 1 + ys.length = bleft * blockItems →
    y < U64 → (∀ x ∈ ys, x < U64) →
    y ≠ lcgOut rnd i0 →
    (∀ b, blocknum ≤ b → b < blocknum + bleft →
        ¬(fn1 = limitN ∧ lastSize ≠ UINTMAX ∧ lastSize < b * blockBytes)) →
    readBlocks content fn1 limitN lastSize bleft blocknum rnd rtotal =
      .mism (blocknum + i0 / blockItems) ((i0 % blockItems) * 4) := by
  intro bleft
  induction bleft with
  | zero =>
    intro content blocknum rnd rtotal i0 y ys hlen hdrop hcount hy hys hneq hbr
    omega
  | succ bleft ih =>
    intro content blocknum rnd rtotal i0 y ys hlen hdrop hcount hy hys hneq hbr
    rw [readBlocks]
    have hC : ¬(fn1 = limitN ∧ lastSize ≠ UINTMAX ∧ lastSize < blocknum * blockBytes) :=
      hbr blocknum (le_refl _) (by omega)
    rw [if_neg hC]
    have hrem : content.length - rtotal = blockBytes + bleft * blockBytes := by
      rw [hlen, Nat.succ_mul]
      omega
    have hrb : min blockBytes (content.length - rtotal) = blockBytes := by
      rw [hrem]
      omega
    rw [hrb, if_neg (by decide : ¬(blockBytes = 0))]
    by_cases hc : i0 < blockItems
    · -- the mismatch lies inside this block
      have hbI : blockItems = i0 + (blockItems - i0 - 1) + 1 := by omega
      have hchunk : (content.drop rtotal).take blockBytes =
          itemsToBytes (lcgList rnd i0 ++ y :: ys.take (blockItems - i0 - 1)) := by
        rw [hdrop, blockBytes_eq, itemsToBytes_take,
          List.take_append_eq_append_take, lcgList_length,
          List.take_of_length_le (by rw [lcgList_length]; omega :
            (lcgList rnd i0).length ≤ blockItems),
          show blockItems - i0 = (blockItems - i0 - 1) + 1 by omega,
          List.take_succ_cons,
          show blockItems - i0 - 1 + 1 - 1 = blockItems - i0 - 1 by omega]
      have hlt : ∀ x ∈ lcgList rnd i0 ++ y :: ys.take (blockItems - i0 - 1), x < U64 := by
        intro x hx
        rcases List.mem_append.mp hx with hx1 | hx2
        · exact lcgList_mem_lt rnd i0 x hx1
        · rcases List.mem_cons.mp hx2 with hxy | hxt
          · rw [hxy]; exact hy
          · exact hys x (List.mem_of_mem_take hxt)
      rw [hchunk, bytesToItems_itemsToBytes _ hlt,
        checkBlock_first_diff i0 rnd 0 y _ hneq]
      dsimp only
      rw [Nat.zero_add, Nat.div_eq_of_lt hc, Nat.mod_eq_of_lt hc, Nat.add_zero]
    · -- this block matches in full; the mismatch is further on
      have hbI : i0 = blockItems + (i0 - blockItems) := by omega
      have hsplit : lcgList rnd i0 =
          blockList rnd ++ lcgList (lcgBlockAdvance rnd) (i0 - blockItems) := by
        rw [blockList_def, lcgBlockAdvance_def, hbI, lcgList_add, ← hbI]
      have hdrop2 : content.drop rtotal =
          itemsToBytes (blockList rnd) ++
            itemsToBytes (lcgList (lcgBlockAdvance rnd) (i0 - blockItems) ++ y :: ys) := by
        rw [hdrop, hsplit, List.append_assoc, itemsToBytes_append]
      have hchunk : (content.drop rtotal).take blockBytes = itemsToBytes (blockList rnd) := by
        rw [hdrop2]
        exact List.take_left' (block_bytes_of_items rnd)
      rw [hchunk, blockList_roundtrip, blockList_def, checkBlock_match,
        ← lcgBlockAdvance_def]
      dsimp only
      have hlen2 : content.length = (rtotal + blockBytes) + bleft * blockBytes := by
        rw [hlen, Nat.succ_mul]
        omega
      have hdrop3 : content.drop (rtotal + blockBytes) =
          itemsToBytes (lcgList (lcgBlockAdvance rnd) (i0 - blockItems) ++ y :: ys) := by
        rw [← List.drop_drop, hdrop2, List.drop_left' (block_bytes_of_items rnd)]
      have hcount2 : (i0 - blockItems) + 1 + ys.length = bleft * blockItems := by
        rw [Nat.succ_mul] at hcount
        omega
      have hneq2 : y ≠ lcgOut (lcgBlockAdvance rnd) (i0 - blockItems) := by
        rw [lcgBlockAdvance_def, ← lcgOut_add, ← hbI]
        exact hneq
      rw [ih content (blocknum + 1) (lcgBlockAdvance rnd) (rtotal + blockBytes)
        (i0 - blockItems) y ys hlen2 hdrop3 hcount2 hy hys hneq2
        (fun b hb1 hb2 => hbr b (by omega) (by omega))]
      have hdiv : (i0 - blockItems) / blockItems + 1 = i0 / blockItems := by
        rw [Nat.div_eq_sub_div (by decide : 0 < blockItems) (Nat.not_lt.mp hc)]
      have hmod : (i0 - blockItems) % blockItems = i0 % blockItems := by
        rw [Nat.mod_eq_sub_mod (Nat.not_lt.mp hc)]
      rw [hmod, show blocknum + 1 + (i0 - blockItems) / blockItems =
        blocknum + ((i0 - blockItems) / blockItems + 1) by omega, hdiv]

/-- `rb == 0` (end-of-file) is fatal exactly when this is not the expected
last file at the recorded size. -/
lemma readBlocks_eof (content : List Nat)
    (fn1 limitN lastSize bleft blocknum rnd rtotal : Nat)
    (heof : content.length ≤ rtotal) :
    readBlocks content fn1 limitN lastSize (bleft + 1) blocknum rnd rtotal =
      if fn1 ≠ limitN ∨ (lastSize ≠ UINTMAX ∧ rtotal ≠ lastSize) then .short rtotal
      else .ok rtotal true := by
  have hsub : content.length - rtotal = 0 := Nat.sub_eq_zero_of_le heof
  by_cases h : fn1 ≠ limitN ∨ (lastSize ≠ UINTMAX ∧ rtotal ≠ lastSize)
  · rw [readBlocks, hsub, Nat.min_zero, if_pos rfl, if_pos h]
  · rw [readBlocks, hsub, Nat.min_zero, if_pos rfl, if_neg h]

/-- The block loop on a file whose bytes from `rtotal` on decode to the
regenerated stream up to word `i0` followed by a differing word `y`:
whatever follows the differing word (more bytes, fewer, corrupted or
none), the loop reports the mismatch at block `i0 / blockItems` with byte
offset `(i0 % blockItems) * 4`, provided the shortened-`read_size` branch
does not fire at or before that block. -/
lemma readBlocks_mismatch_prefix (fn1 limitN lastSize : Nat) :
    ∀ (bleft : Nat) (content : List Nat) (blocknum rnd rtotal i0 y : Nat) (rest : List Nat),
    content.drop rtotal = itemsToBytes (lcgList rnd i0 ++ [y]) ++ rest →
    i0 < bleft * blockItems →
    y < U64 →
    y ≠ lcgOut rnd i0 →
    (∀ b, blocknum ≤ b → b ≤ blocknum + i0 / blockItems →
        ¬(fn1 = limitN ∧ lastSize ≠ UINTMAX ∧ lastSize < b * blockBytes)) →
    readBlocks content fn1 limitN lastSize bleft blocknum rnd rtotal =
      .mism (blocknum + i0 / blockItems) ((i0 % blockItems) * 4) := by
  intro bleft
  induction bleft with
  | zero =>
    intro content blocknum rnd rtotal i0 y rest hdrop hi0 hy hneq hbr
    omega
  | succ bleft ih =>
    intro content blocknum rnd rtotal i0 y rest hdrop hi0 hy hneq hbr
    rw [readBlocks]
    have hC : ¬(fn1 = limitN ∧ lastSize ≠ UINTMAX ∧ lastSize < blocknum * blockBytes) :=
      hbr blocknum (le_refl _) (Nat.le_add_right _ _)
    rw [if_neg hC]
    have hrem : content.length - rtotal = 8 * (i0 + 1) + rest.length := by
      rw [← List.length_drop, hdrop, List.length_append, itemsToBytes_length,
        List.length_append, lcgList_length, List.length_cons, List.length_nil]
    by_cases hc : i0 < blockItems
    · -- the differing word lies inside this block
      have hc9 : i0 < 131072 := hc
      have hrb0 : ¬(min blockBytes (content.length - rtotal) = 0) := by
        rw [hrem, blockBytes_val]
        omega
      have hAlen : (itemsToBytes (lcgList rnd i0 ++ [y])).length = 8 * (i0 + 1) := by
        rw [itemsToBytes_length, List.length_append, lcgList_length, List.length_cons,
          List.length_nil]
      have hAle : (itemsToBytes (lcgList rnd i0 ++ [y])).length ≤
          min blockBytes (content.length - rtotal) := by
        rw [hAlen, hrem, blockBytes_val]
        omega
      have hchunk : (content.drop rtotal).take (min blockBytes (content.length - rtotal)) =
          itemsToBytes (lcgList rnd i0 ++ [y]) ++
            rest.take (min blockBytes (content.length - rtotal) -
              (itemsToBytes (lcgList rnd i0 ++ [y])).length) := by
        rw [hdrop, List.take_append_eq_append_take, List.take_of_length_le hAle]
      have hlt : ∀ x ∈ lcgList rnd i0 ++ [y], x < U64 := by
        intro x hx
        rcases List.mem_append.mp hx with hx1 | hx2
        · exact lcgList_mem_lt rnd i0 x hx1
        · rw [List.mem_singleton.mp hx2]
          exact hy
      rw [if_neg hrb0, hchunk, bytesToItems_encode_append _ _ hlt, List.append_assoc,
        List.singleton_append, checkBlock_first_diff i0 rnd 0 y _ hneq]
      dsimp only
      rw [Nat.zero_add, Nat.div_eq_of_lt hc, Nat.mod_eq_of_lt hc, Nat.add_zero]
    · -- this block matches in full; the differing word is further on
      have hbI : i0 = blockItems + (i0 - blockItems) := by omega
      have hsplit : lcgList rnd i0 =
          blockList rnd ++ lcgList (lcgBlockAdvance rnd) (i0 - blockItems) := by
        rw [blockList_def, lcgBlockAdvance_def, hbI, lcgList_add, ← hbI]
      have hdrop2 : content.drop rtotal =
          itemsToBytes (blockList rnd) ++
            (itemsToBytes (lcgList (lcgBlockAdvance rnd) (i0 - blockItems) ++ [y]) ++
              rest) := by
        rw [hdrop, hsplit, List.append_assoc, itemsToBytes_append, List.append_assoc]
      have hrb : min blockBytes (content.length - rtotal) = blockBytes := by
        rw [hrem, blockBytes_val]
        have hc9 : 131072 ≤ i0 := Nat.not_lt.mp hc
        omega
      rw [hrb, if_neg (by decide : ¬(blockBytes = 0))]
      have hchunk : (content.drop rtotal).take blockBytes = itemsToBytes (blockList rnd) := by
        rw [hdrop2]
        exact List.take_left' (block_bytes_of_items rnd)
      rw [hchunk, blockList_roundtrip, blockList_def, checkBlock_match,
        ← lcgBlockAdvance_def]
      dsimp only
      have hdrop3 : content.drop (rtotal + blockBytes) =
          itemsToBytes (lcgList (lcgBlockAdvance rnd) (i0 - blockItems) ++ [y]) ++ rest := by
        rw [← List.drop_drop, hdrop2, List.drop_left' (block_bytes_of_items rnd)]
      have hi0b : i0 - blockItems < bleft * blockItems := by
        rw [Nat.succ_mul] at hi0
        omega
      have hneq2 : y ≠ lcgOut (lcgBlockAdvance rnd) (i0 - blockItems) := by
        rw [lcgBlockAdvance_def, ← lcgOut_add, ← hbI]
        exact hneq
      have hdiv : (i0 - blockItems) / blockItems + 1 = i0 / blockItems := by
        rw [Nat.div_eq_sub_div (by decide : 0 < blockItems) (Nat.not_lt.mp hc)]
      rw [ih content (blocknum + 1) (lcgBlockAdvance rnd) (rtotal + blockBytes)
        (i0 - blockItems) y rest hdrop3 hi0b hy hneq2
        (fun b hb1 hb2 => hbr b (by omega) (by rw [← hdiv]; omega))]
      have hmod : (i0 - blockItems) % blockItems = i0 % blockItems := by
        rw [Nat.mod_eq_sub_mod (Nat.not_lt.mp hc)]
      rw [hmod, show blocknum + 1 + (i0 - blockItems) / blockItems =
        blocknum + ((i0 - blockItems) / blockItems + 1) by omega, hdiv]

lemma readFilesGo_step_none (gseed fsize : Nat) (files : List (List Nat)) (lastSize : Nat)
    (uA : Bool) (fuel filenum : Nat) (hfile : files[filenum]? = none) :
    readFilesGo gseed fsize files lastSize uA (fuel + 1) filenum = .success filenum uA := by
  rw [readFilesGo, hfile]

lemma readFilesGo_step_ok (gseed fsize : Nat) (files : List (List Nat)) (lastSize : Nat)
    (uA : Bool) (fuel filenum rt : Nat) (content : List Nat)
    (hfile : files[filenum]? = some content)
    (hblocks : readBlocks content (filenum + 1) files.length lastSize fsize 0
        ((gseed + (filenum + 1)) % U32) 0 = .ok rt false) :
    readFilesGo gseed fsize files lastSize uA (fuel + 1) filenum =
      readFilesGo gseed fsize files lastSize uA fuel (filenum + 1) := by
  rw [readFilesGo, hfile]
  dsimp only
  rw [hblocks]

lemma readFilesGo_step_done (gseed fsize : Nat) (files : List (List Nat)) (lastSize : Nat)
    (uA : Bool) (fuel filenum rt : Nat) (content : List Nat)
    (hfile : files[filenum]? = some content)
    (hblocks : readBlocks content (filenum + 1) files.length lastSize fsize 0
        ((gseed + (filenum + 1)) % U32) 0 = .ok rt true) :
    readFilesGo gseed fsize files lastSize uA (fuel + 1) filenum =
      .success (filenum + 1) uA := by
  rw [readFilesGo, hfile]
  dsimp only
  rw [hblocks]

lemma readFilesGo_step_mism (gseed fsize : Nat) (files : List (List Nat)) (lastSize : Nat)
    (uA : Bool) (fuel filenum b off : Nat) (content : List Nat)
    (hfile : files[filenum]? = some content)
    (hblocks : readBlocks content (filenum + 1) files.length lastSize fsize 0
        ((gseed + (filenum + 1)) % U32) 0 = .mism b off) :
    readFilesGo gseed fsize files lastSize uA (fuel + 1) filenum =
      .mismExit filenum b off false := by
  rw [readFilesGo, hfile]
  dsimp only
  rw [hblocks]

lemma readFilesGo_step_short (gseed fsize : Nat) (files : List (List Nat)) (lastSize : Nat)
    (uA : Bool) (fuel filenum rt : Nat) (content : List Nat)
    (hfile : files[filenum]? = some content)
    (hblocks : readBlocks content (filenum + 1) files.length lastSize fsize 0
        ((gseed + (filenum + 1)) % U32) 0 = .short rt) :
    readFilesGo gseed fsize files lastSize uA (fuel + 1) filenum =
      .shortExit filenum uA := by
  rw [readFilesGo, hfile]
  dsimp only
  rw [hblocks]

/-- Files that verify in full with `done` clear are passed over one by one. -/
lemma readFilesGo_skip (gseed fsize : Nat) (files : List (List Nat)) (lastSize : Nat)
    (uA : Bool) : ∀ (d fuel filenum : Nat),
    (∀ j, filenum ≤ j → j < filenum + d → ∃ content rt,
        files[j]? = some content ∧
        readBlocks content (j + 1) files.length lastSize fsize 0
          ((gseed + (j + 1)) % U32) 0 = .ok rt false) →
    readFilesGo gseed fsize files lastSize uA (d + fuel) filenum =
      readFilesGo gseed fsize files lastSize uA fuel (filenum + d) := by
  intro d
  induction d with
  | zero =>
    intro fuel filenum _
    rw [Nat.zero_add, Nat.add_zero]
  | succ d ihd =>
    intro fuel filenum h
    obtain ⟨content, rt, hfile, hblocks⟩ := h filenum (le_refl _) (by omega)
    rw [show d + 1 + fuel = (d + fuel) + 1 by omega,
      readFilesGo_step_ok gseed fsize files lastSize uA (d + fuel) filenum rt content
        hfile hblocks,
      ihd fuel (filenum + 1) (fun j hj1 hj2 => h j (by omega) (by omega)),
      show filenum + 1 + d = filenum + (d + 1) by omega]

/-- A full error-free file verifies with no mismatch and no end-of-file,
whenever the shortened-`read_size` branch cannot fire: it is not the
expected last file, or no marker is recorded, or the marker equals the
full size. -/
lemma readBlocks_of_fullFileBytes (rnd fsize fn1 limitN lastSize : Nat)
    (hcase : fn1 ≠ limitN ∨ lastSize = UINTMAX ∨ lastSize = fsize * blockBytes) :
    readBlocks (fullFileBytes rnd fsize) fn1 limitN lastSize fsize 0 rnd 0 =
      .ok (fsize * blockBytes) false := by
  have hbr : ∀ b, 0 ≤ b → b < 0 + fsize →
      ¬(fn1 = limitN ∧ lastSize ≠ UINTMAX ∧ lastSize < b * blockBytes) := by
    intro b _ hb hc
    rcases hcase with h1 | h2 | h3
    · exact h1 hc.1
    · exact hc.2.1 h2
    · have hmul : b * blockBytes ≤ fsize * blockBytes :=
        Nat.mul_le_mul_right blockBytes (by omega)
      have := hc.2.2
      omega
  have h := readBlocks_full_match fn1 limitN lastSize fsize (fullFileBytes rnd fsize) 0 rnd 0
    (by rw [fullFileBytes_length, Nat.zero_add])
    (by rw [List.drop_zero, fullFileBytes]) hbr
  rw [Nat.zero_add] at h
  exact h

/-- Verifying the error-free output of the write phase succeeds for all
`n` files. -/
lemma read_fullFiles_success (S fsize n lastSize : Nat) (uA : Bool)
    (hcase : lastSize = UINTMAX ∨ lastSize = fsize * blockBytes) :
    read_randfiles S fsize (fullFiles S fsize n 0) lastSize uA = .success n uA := by
  have hlen : (fullFiles S fsize n 0).length = n := fullFiles_length S fsize n 0
  rw [read_randfiles, hlen]
  have hskip := readFilesGo_skip S fsize (fullFiles S fsize n 0) lastSize uA n 1 0 ?_
  · rw [hskip, Nat.zero_add]
    exact readFilesGo_step_none S fsize _ lastSize uA 0 n
      (List.getElem?_eq_none (le_of_eq hlen))
  · intro j _ hj
    rw [Nat.zero_add] at hj
    refine ⟨fullFileBytes ((S + (j + 1)) % U32) fsize, fsize * blockBytes, ?_, ?_⟩
    · rw [fullFiles_get S fsize n 0 j hj, Nat.zero_add]
    · rw [hlen]
      exact readBlocks_of_fullFileBytes _ fsize (j + 1) n lastSize
        (by rcases hcase with h | h
            · exact Or.inr (Or.inl h)
            · exact Or.inr (Or.inr h))

lemma fullFiles_map_length_sum (S fsize : Nat) : ∀ (q fn : Nat),
    ((fullFiles S fsize q fn).map List.length).sum = q * (fsize * blockBytes) := by
  intro q
  induction q with
  | zero => intro fn; simp [fullFiles]
  | succ q ih =>
    intro fn
    rw [fullFiles, List.map_cons, List.sum_cons, ih (fn + 1), fullFileBytes_length,
      Nat.succ_mul]
    omega

/-- Verifying the output of a disk-full run succeeds: the `q` full files
verify and the partial last file of `r` matching bytes ends at a clean
end-of-file against the recorded marker `r`. -/
lemma read_after_diskFull (S fsize q r : Nat) (uA : Bool)
    (hr : r < fsize * blockBytes) :
    read_randfiles S fsize
      (fullFiles S fsize q 0 ++ [(fullFileBytes ((S + (q + 1)) % U32) fsize).take r])
      r uA = .success (q + 1) uA := by
  set files := fullFiles S fsize q 0 ++
    [(fullFileBytes ((S + (q + 1)) % U32) fsize).take r] with hfiles
  have hlen : files.length = q + 1 := by
    rw [hfiles, List.length_append, fullFiles_length, List.length_cons, List.length_nil]
  rw [read_randfiles, hlen]
  have hskip := readFilesGo_skip S fsize files r uA q 2 0 ?_
  · rw [show q + 1 + 1 = q + 2 by omega, hskip, Nat.zero_add]
    have hget : files[q]? = some ((fullFileBytes ((S + (q + 1)) % U32) fsize).take r) := by
      rw [hfiles, List.getElem?_append_right (le_of_eq (fullFiles_length S fsize q 0)),
        fullFiles_length]
      simp
    have hpart := readBlocks_partial_match (q + 1) r fsize
      ((fullFileBytes ((S + (q + 1)) % U32) fsize).take r) 0 ((S + (q + 1)) % U32) 0
      (by rw [List.length_take, fullFileBytes_length]; omega)
      (by rw [Nat.zero_mul]; omega)
      (by rw [Nat.zero_mul]; omega)
      (by rw [List.drop_zero, Nat.sub_zero, fullFileBytes])
    rcases hpart with hdone | hcont
    · exact readFilesGo_step_done S fsize files r uA 1 q r _ hget (by rw [hlen]; exact hdone)
    · rw [readFilesGo_step_ok S fsize files r uA 1 q r _ hget (by rw [hlen]; exact hcont)]
      exact readFilesGo_step_none S fsize files r uA 0 (q + 1)
        (List.getElem?_eq_none (le_of_eq hlen))
  · intro j _ hj
    rw [Nat.zero_add] at hj
    refine ⟨fullFileBytes ((S + (j + 1)) % U32) fsize, fsize * blockBytes, ?_, ?_⟩
    · rw [hfiles, List.getElem?_append_left (by rw [fullFiles_length]; omega),
        fullFiles_get S fsize q 0 j hj, Nat.zero_add]
    · rw [hlen]
      exact readBlocks_of_fullFileBytes _ fsize (j + 1) (q + 1) r (Or.inl (by omega))

lemma flatMap_const_swap {α : Type} (L : List α) : ∀ n : Nat,
    ((List.range n).flatMap (fun _ => L)) ++ L = L ++ (List.range n).flatMap (fun _ => L) := by
  intro n
  induction n with
  | zero => simp
  | succ n ih =>
    rw [List.range_succ, List.flatMap_append]
    simp only [List.flatMap_cons, List.flatMap_nil, List.append_nil]
    rw [ih, List.append_assoc]
    congr 1

lemma flatMap_const_range {α : Type} (L : List α) : ∀ n : Nat,
    (List.range (n + 1)).flatMap (fun _ => L) = L ++ (List.range n).flatMap (fun _ => L) := by
  intro n
  induction n with
  | zero =>
    rw [show List.range 1 = [0] from rfl]
    simp
  | succ n ih =>
    rw [List.range_succ, List.flatMap_append, ih]
    simp only [List.flatMap_cons, List.flatMap_nil, List.append_nil]
    rw [List.append_assoc, flatMap_const_swap L n]

lemma mainLoop_no_failure (cfg : Config) (oracle : Nat → Bool)
    (hok : ∀ r, oracle r = false) : ∀ (n r : Nat),
    mainLoop cfg oracle n r = (List.range n).flatMap (fun _ =>
      (if cfg.readonly then [] else [Phase.cleanOld, Phase.fill]) ++
      (if cfg.readonly then [Phase.verify]
        else if cfg.skipVerify then [] else [Phase.verify]) ++
      (if cfg.unlinkAfter then [Phase.cleanAfter] else [])) := by
  intro n
  induction n with
  | zero => intro r; rfl
  | succ n ih =>
    intro r
    rw [mainLoop, flatMap_const_range, ← ih (r + 1)]
    rcases hro : cfg.readonly with _ | _ <;>
      rcases hsk : cfg.skipVerify with _ | _ <;>
        rcases hua : cfg.unlinkAfter with _ | _ <;>
          simp [hok r]

lemma mainLoop_first_failure (cfg : Config) (oracle : Nat → Bool)
    (hro : cfg.readonly = false) (hsk : cfg.skipVerify = false) : ∀ (r0 n r : Nat),
    r0 < n → (∀ j, j < r0 → oracle (r + j) = false) → oracle (r + r0) = true →
    mainLoop cfg oracle n r = (List.range r0).flatMap (fun _ =>
      [Phase.cleanOld, Phase.fill, Phase.verify] ++
      (if cfg.unlinkAfter then [Phase.cleanAfter] else [])) ++
      [Phase.cleanOld, Phase.fill, Phase.verify] := by
  intro r0
  induction r0 with
  | zero =>
    intro n r hn hprev hfail
    obtain ⟨m, hm⟩ : ∃ m, n = m + 1 := ⟨n - 1, by omega⟩
    rw [hm, mainLoop, hro, hsk]
    rw [Nat.add_zero] at hfail
    simp [hfail]
  | succ r0 ihr =>
    intro n r hn hprev hfail
    obtain ⟨m, hm⟩ : ∃ m, n = m + 1 := ⟨n - 1, by omega⟩
    have h0 : oracle r = false := by
      have := hprev 0 (by omega)
      rwa [Nat.add_zero] at this
    rw [hm, mainLoop, hro, hsk, h0]
    rw [ihr m (r + 1) (by omega)
      (fun j hj => by rw [show r + 1 + j = r + (j + 1) by omega]; exact hprev (j + 1) (by omega))
      (by rw [show r + 1 + r0 = r + (r0 + 1) by omega]; exact hfail)]
    rw [flatMap_const_range]
    rcases hua : cfg.unlinkAfter with _ | _ <;> simp

/-! ## Claim theorems -/
/-- C1: the stream generator is the pure function
`next(state) = A * state + C` over 64-bit words with
`A = 0x27BB2EE687B0B0FD` and `C = 0xB504F32D`: one call replaces the
state `s` by `(A * s + C) mod 2 ^ 64` and returns that new state as the
output item; for every seed `S` and file index `n >= 1` the generator
run from initial state `S + n` is deterministic (two runs produce the
identical sequence); and within any feasible run (fewer than `2 ^ 64`
draws) the raw seed value is never emitted as an output item. -/
theorem claim_C1_stream_generator (s S n k : Nat) (hn : 1 ≤ n) (hk : k + 1 < 2 ^ 64) :
    lcg_random s = ((0x27BB2EE687B0B0FD * s + 0xB504F32D) % 2 ^ 64,
      (0x27BB2EE687B0B0FD * s + 0xB504F32D) % 2 ^ 64) ∧
    (lcg_random s).1 = (lcg_random s).2 ∧
    (∀ m, lcgList (S + n) m = lcgList (S + n) m) ∧
    lcgOut s k ≠ s := by
  refine ⟨rfl, rfl, fun m => rfl, ?_⟩
  exact lcg_iterate_ne s (k + 1) (by omega) hk

theorem claim_C1_stream_generator_witness :
    (1 ≤ 1 ∧ 0 + 1 < 2 ^ 64) ∧
    (lcg_random 5 = ((0x27BB2EE687B0B0FD * 5 + 0xB504F32D) % 2 ^ 64,
        (0x27BB2EE687B0B0FD * 5 + 0xB504F32D) % 2 ^ 64) ∧
      (lcg_random 5).1 = (lcg_random 5).2 ∧
      (∀ m, lcgList (7 + 1) m = lcgList (7 + 1) m) ∧
      lcgOut 5 0 ≠ 5) :=
  ⟨⟨le_refl 1, by norm_num⟩,
    claim_C1_stream_generator 5 7 1 0 (le_refl 1) (by norm_num)⟩

/-- C3: round-trip law of the write/verify engine: a file of `fsize > 0`
blocks written by the fill phase with no write error (capacity covers the
file, so the loop's `done` flag stays clear), whose stored bytes the read
phase returns unchanged, verifies over all `fsize` blocks with zero
mismatches; the side condition states that the shortened-`read_size`
branch is consistent, as in any actual run (not the expected last file,
no marker recorded, or marker = full size). -/
theorem claim_C3_round_trip (rnd fsize fn1 limitN lastSize rem : Nat)
    (hf : 0 < fsize) (hcap : fsize * blockBytes ≤ rem)
    (hcase : fn1 ≠ limitN ∨ lastSize = UINTMAX ∨ lastSize = fsize * blockBytes) :
    (writeFileBlocks rnd fsize false rem).2.2.1 = false ∧
    readBlocks (writeFileBlocks rnd fsize false rem).1 fn1 limitN lastSize
      fsize 0 rnd 0 = .ok (fsize * blockBytes) false := by
  rw [writeFileBlocks_full fsize rnd rem hcap]
  exact ⟨rfl, readBlocks_of_fullFileBytes rnd fsize fn1 limitN lastSize hcase⟩

theorem claim_C3_round_trip_witness :
    (0 < 1 ∧ 1 * blockBytes ≤ blockBytes ∧ ((1 : Nat) ≠ 2 ∨ UINTMAX = UINTMAX ∨
      UINTMAX = 1 * blockBytes)) ∧
    ((writeFileBlocks 9 1 false blockBytes).2.2.1 = false ∧
      readBlocks (writeFileBlocks 9 1 false blockBytes).1 1 2 UINTMAX
        1 0 9 0 = .ok (1 * blockBytes) false) :=
  ⟨⟨by decide, by decide, Or.inl (by decide)⟩,
    claim_C3_round_trip 9 1 1 2 UINTMAX blockBytes (by decide) (by decide)
      (Or.inl (by decide))⟩

/-- C8 counterexample: with 1 MiB of free bytes and 2 MiB per file, the
code computes `(2^20 + 2 - 1) / 2^20 / 2 = 0` expected files, while
`ceil(free_bytes / (size_MiB * 2^20)) = 1`; the claim's ceiling formula
does not describe the code. -/
theorem claim_C8_counterexample :
    expectedFileLimit (1024 * 1024) 2 = 0 ∧
    (1024 * 1024 + (2 * (1024 * 1024) - 1)) / (2 * (1024 * 1024)) = 1 ∧
    (0 : Nat) ≠ 1 :=
  ⟨by decide, by decide, by decide⟩

/-- C8 amended: when no explicit file-count limit is configured and the
free-space query returns `free_size` bytes, the expected file count used
for ETA reporting equals
`floor((free_size + size_MiB - 1) / (size_MiB * 2^20))` (truncated to
`unsigned int`) — the ceiling idiom `+ size_MiB - 1` is applied at MiB
scale before the byte-to-MiB division, so the result rounds down, not up. -/
theorem claim_C8_amended (free_size S : Nat) (hS : 0 < S)
    (hfree : free_size + S ≤ 2 ^ 64) :
    expectedFileLimit free_size S = ((free_size + S - 1) / (S * (1024 * 1024))) % U32 := by
  rw [expectedFileLimit]
  have h1 : (free_size + S - 1) % U64 = free_size + S - 1 :=
    Nat.mod_eq_of_lt (by rw [U64]; omega)
  rw [h1, Nat.div_div_eq_div_mul, mul_comm (1024 * 1024) S]

theorem claim_C8_amended_witness :
    (0 < 2 ∧ 1024 * 1024 + 2 ≤ 2 ^ 64) ∧
    expectedFileLimit (1024 * 1024) 2 =
      ((1024 * 1024 + 2 - 1) / (2 * (1024 * 1024))) % U32 :=
  ⟨⟨by decide, by norm_num⟩,
    claim_C8_amended (1024 * 1024) 2 (by decide) (by norm_num)⟩

/-- C9 counterexample: with no data files present, the failure to open the
very first file `random-00000000` is handled exactly like any other open
failure at the end of the sequence — `read_randfiles` prints the open
error, leaves the loop, and the run ends as the ordinary end-of-sequence
success outcome (`.success 0`), with no distinct no-data signal. -/
theorem claim_C9_counterexample :
    read_randfiles 7 1 [] UINTMAX true = .success 0 true ∧
    readFilesGo 7 1 [] UINTMAX true 1 5 = .success 5 true :=
  ⟨rfl, rfl⟩

/-- C9 amended: in the read/verify phase without immediate-unlink, a
failure to open the file with index `filenum` ends the read loop as a
normal end-of-sequence condition for every index, including index 0 —
there is no special case signalling that no data exists. -/
theorem claim_C9_amended (gseed fsize : Nat) (files : List (List Nat))
    (lastSize : Nat) (uA : Bool) (fuel filenum : Nat)
    (hopen : files[filenum]? = none) :
    readFilesGo gseed fsize files lastSize uA (fuel + 1) filenum =
      .success filenum uA :=
  readFilesGo_step_none gseed fsize files lastSize uA fuel filenum hopen

theorem claim_C9_amended_witness :
    ([] : List (List Nat))[0]? = none ∧
    readFilesGo 3 1 [] UINTMAX false 1 0 = .success 0 false :=
  ⟨rfl, claim_C9_amended 3 1 [] UINTMAX false 0 0 rfl⟩

lemma UINTMAX_lt_U32 : UINTMAX < U32 := by decide

/-- C2: for every base seed `S` and 1-based file index `k + 1` (the index
is incremented before first use), the write path seeds the generator with
`S + (k + 1)` for that file, and the read path regenerates the very same
stream and verifies the written set; concretely, with seed 42, 1 MiB
files and a 3-file limit, the files `random-00000000/1/2` are the streams
seeded at 43, 44, 45, each exactly 1,048,576 bytes. -/
theorem claim_C2_per_file_seeding (S fsize flimit cap k : Nat)
    (hf : 0 < fsize) (hk : k < flimit)
    (hcap : flimit * (fsize * blockBytes) ≤ cap)
    (hS : S + k + 1 < U32) (hD : fsize * blockBytes < UINTMAX) :
    (write_randfiles S fsize flimit cap).1[k]? =
      some (fullFileBytes (S + k + 1) fsize) ∧
    read_randfiles S fsize (write_randfiles S fsize flimit cap).1
      (write_randfiles S fsize flimit cap).2.1 true = .success flimit true ∧
    (write_randfiles 42 1 3 (3 * blockBytes)).1 =
      [fullFileBytes 43 1, fullFileBytes 44 1, fullFileBytes 45 1] ∧
    (∀ f ∈ (write_randfiles 42 1 3 (3 * blockBytes)).1, f.length = 1048576) := by
  have hW := writeFilesGo_noError S fsize flimit 0 UINTMAX cap hcap
  have hW42 := writeFilesGo_noError 42 1 3 0 UINTMAX (3 * blockBytes) (by decide)
  have h42 : (write_randfiles 42 1 3 (3 * blockBytes)).1 =
      [fullFileBytes 43 1, fullFileBytes 44 1, fullFileBytes 45 1] := by
    rw [write_randfiles, hW42]
    dsimp only
    rw [fullFiles, fullFiles, fullFiles, fullFiles]
    norm_num [U32]
  refine ⟨?_, ?_, h42, ?_⟩
  · rw [write_randfiles, hW]
    dsimp only
    rw [fullFiles_get S fsize flimit 0 k hk, Nat.zero_add, ← Nat.add_assoc,
      Nat.mod_eq_of_lt hS]
  · rw [write_randfiles, hW]
    dsimp only
    rw [if_neg (by omega : ¬(flimit = 0)),
      Nat.mod_eq_of_lt (by have := UINTMAX_lt_U32; omega)]
    exact read_fullFiles_success S fsize flimit (fsize * blockBytes) true (Or.inr rfl)
  · intro f hf2
    rw [h42] at hf2
    simp only [List.mem_cons, List.not_mem_nil, or_false] at hf2
    have hone : ∀ r : Nat, (fullFileBytes r 1).length = 1048576 := by
      intro r
      rw [fullFileBytes_length, one_mul, blockBytes_val]
    rcases hf2 with h | h | h <;> rw [h] <;> exact hone _

theorem claim_C2_per_file_seeding_witness :
    (0 < 1 ∧ 0 < 3 ∧ 3 * (1 * blockBytes) ≤ 3 * blockBytes ∧
      42 + 0 + 1 < U32 ∧ 1 * blockBytes < UINTMAX) ∧
    ((write_randfiles 42 1 3 (3 * blockBytes)).1[0]? =
        some (fullFileBytes (42 + 0 + 1) 1) ∧
      read_randfiles 42 1 (write_randfiles 42 1 3 (3 * blockBytes)).1
        (write_randfiles 42 1 3 (3 * blockBytes)).2.1 true = .success 3 true ∧
      (write_randfiles 42 1 3 (3 * blockBytes)).1 =
        [fullFileBytes 43 1, fullFileBytes 44 1, fullFileBytes 45 1] ∧
      (∀ f ∈ (write_randfiles 42 1 3 (3 * blockBytes)).1, f.length = 1048576)) :=
  ⟨⟨by decide, by decide, by decide, by decide, by decide⟩,
    claim_C2_per_file_seeding 42 1 3 (3 * blockBytes) 0 (by decide) (by decide)
      (by decide) (by decide) (by decide)⟩

/-- C4: when the capacity runs out mid-run, the write failure is
non-fatal: the `done` flag propagates out of the block loop and the file
loop, no further bytes are written to any file (the stored bytes across
all files total exactly the capacity), the last-file-size marker records
exactly the bytes written to the partial final file, and the subsequent
verify phase, expecting exactly that many bytes in the final file, passes
on the stored bytes. -/
theorem claim_C4_disk_full (S fsize flimit cap : Nat) (hf : 0 < fsize)
    (hcap : cap < flimit * (fsize * blockBytes))
    (hr : cap % (fsize * blockBytes) < UINTMAX) :
    (write_randfiles S fsize flimit cap).2.2 = true ∧
    (write_randfiles S fsize flimit cap).1.length =
      cap / (fsize * blockBytes) + 1 ∧
    ((write_randfiles S fsize flimit cap).1.map List.length).sum = cap ∧
    (write_randfiles S fsize flimit cap).2.1 = cap % (fsize * blockBytes) ∧
    read_randfiles S fsize (write_randfiles S fsize flimit cap).1
      (write_randfiles S fsize flimit cap).2.1 true =
      .success (cap / (fsize * blockBytes) + 1) true := by
  have hW := writeFilesGo_diskFull S fsize flimit 0 UINTMAX cap hcap
  have hU := UINTMAX_lt_U32
  have hD0 : 0 < fsize * blockBytes := by
    rcases Nat.eq_zero_or_pos (fsize * blockBytes) with h | h
    · rw [h, Nat.mul_zero] at hcap
      omega
    · exact h
  have hrD : cap % (fsize * blockBytes) < fsize * blockBytes := Nat.mod_lt _ hD0
  refine ⟨?_, ?_, ?_, ?_, ?_⟩
  · rw [write_randfiles, hW]
  · rw [write_randfiles, hW]
    dsimp only
    rw [List.length_append, fullFiles_length, List.length_cons, List.length_nil]
  · rw [write_randfiles, hW]
    dsimp only
    rw [List.map_append, List.sum_append, fullFiles_map_length_sum,
      List.map_cons, List.map_nil, List.sum_cons, List.sum_nil, List.length_take,
      fullFileBytes_length, min_eq_left (le_of_lt hrD),
      mul_comm (cap / (fsize * blockBytes)) (fsize * blockBytes)]
    have hdm := Nat.div_add_mod cap (fsize * blockBytes)
    omega
  · rw [write_randfiles, hW]
    dsimp only
    exact Nat.mod_eq_of_lt (by omega)
  · rw [write_randfiles, hW]
    dsimp only
    rw [Nat.zero_add, Nat.mod_eq_of_lt (by omega : cap % (fsize * blockBytes) < U32)]
    exact read_after_diskFull S fsize (cap / (fsize * blockBytes))
      (cap % (fsize * blockBytes)) true hrD

theorem claim_C4_disk_full_witness :
    (0 < 1 ∧ blockBytes + 4 < 2 * (1 * blockBytes) ∧
      (blockBytes + 4) % (1 * blockBytes) < UINTMAX) ∧
    ((write_randfiles 1 1 2 (blockBytes + 4)).2.2 = true ∧
      (write_randfiles 1 1 2 (blockBytes + 4)).1.length =
        (blockBytes + 4) / (1 * blockBytes) + 1 ∧
      ((write_randfiles 1 1 2 (blockBytes + 4)).1.map List.length).sum =
        blockBytes + 4 ∧
      (write_randfiles 1 1 2 (blockBytes + 4)).2.1 =
        (blockBytes + 4) % (1 * blockBytes) ∧
      read_randfiles 1 1 (write_randfiles 1 1 2 (blockBytes + 4)).1
        (write_randfiles 1 1 2 (blockBytes + 4)).2.1 true =
        .success ((blockBytes + 4) / (1 * blockBytes) + 1) true) :=
  ⟨⟨by decide, by decide, by decide⟩,
    claim_C4_disk_full 1 1 2 (blockBytes + 4) (by decide) (by decide) (by decide)⟩

/-- C5: in every verify run, for every file, the first word that differs
from the regenerated stream is reported with the file number, the block
index and the byte offset; the whole run stops right there with the fatal
`exit(EXIT_FAILURE)` — no further words, blocks or files are scanned, the
result being determined by the bytes up to and including the first
differing word alone, whatever follows them — and `gopt_unlink_after` is
cleared so the pending unlink-after policy is suppressed and the
mismatching file survives.  The side condition only excludes the
shortened-`read_size` branch firing before the differing word is reached:
it holds for a mismatch in any non-last file, in any file when no marker
is recorded, in the last file of a completed run (marker
`fsize * blockBytes`), and in a partial last file whose marker covers the
differing word. -/
theorem claim_C5_mismatch_fatal (gseed fsize lastSize : Nat) (files : List (List Nat))
    (uA : Bool) (k i0 y : Nat) (rest : List Nat)
    (hk : k < files.length)
    (hprev : ∀ j, j < k →
      files[j]? = some (fullFileBytes ((gseed + (j + 1)) % U32) fsize))
    (hfile : files[k]? =
      some (itemsToBytes (lcgList ((gseed + (k + 1)) % U32) i0 ++ [y]) ++ rest))
    (hi0 : i0 < fsize * blockItems)
    (hy : y < U64)
    (hneq : y ≠ lcgOut ((gseed + (k + 1)) % U32) i0)
    (hcase : k + 1 ≠ files.length ∨ lastSize = UINTMAX ∨
      (i0 / blockItems) * blockBytes ≤ lastSize) :
    read_randfiles gseed fsize files lastSize uA =
      .mismExit k (i0 / blockItems) ((i0 % blockItems) * 4) false := by
  rw [read_randfiles,
    show files.length + 1 = k + ((files.length - k - 1 + 1) + 1) by omega,
    readFilesGo_skip gseed fsize files lastSize uA k ((files.length - k - 1 + 1) + 1) 0
      (by
        intro j hj0 hj
        rw [Nat.zero_add] at hj
        exact ⟨fullFileBytes ((gseed + (j + 1)) % U32) fsize, fsize * blockBytes,
          hprev j hj,
          readBlocks_of_fullFileBytes _ fsize (j + 1) files.length lastSize
            (Or.inl (by omega))⟩),
    Nat.zero_add]
  have hmis := readBlocks_mismatch_prefix (k + 1) files.length lastSize fsize
    (itemsToBytes (lcgList ((gseed + (k + 1)) % U32) i0 ++ [y]) ++ rest) 0
    ((gseed + (k + 1)) % U32) 0 i0 y rest
    (by rw [List.drop_zero])
    hi0 hy hneq
    (by
      intro b hb0 hb1 hc
      rcases hcase with h | h | h
      · exact h hc.1
      · exact hc.2.1 h
      · have hmul : b * blockBytes ≤ (i0 / blockItems) * blockBytes :=
          Nat.mul_le_mul_right blockBytes (by omega)
        have := hc.2.2
        omega)
  rw [Nat.zero_add] at hmis
  exact readFilesGo_step_mism gseed fsize files lastSize uA _ k _ _ _ hfile hmis

theorem claim_C5_mismatch_fatal_witness :
    ((0 : Nat) < 1 ∧
      (0 : Nat) < 1 * blockItems ∧
      (0 : Nat) < U64 ∧
      (0 : Nat) ≠ lcgOut ((3 + (0 + 1)) % U32) 0) ∧
    read_randfiles 3 1
      [itemsToBytes (lcgList ((3 + (0 + 1)) % U32) 0 ++ [0]) ++ []] UINTMAX true =
      .mismExit 0 (0 / blockItems) ((0 % blockItems) * 4) false :=
  ⟨⟨by decide, by decide, by decide, by decide⟩,
    claim_C5_mismatch_fatal 3 1 UINTMAX
      [itemsToBytes (lcgList ((3 + (0 + 1)) % U32) 0 ++ [0]) ++ []] true 0 0 0 []
      (by decide) (fun j hj => absurd hj (by omega)) rfl
      (by decide) (by decide) (by decide) (Or.inr (Or.inl rfl))⟩

/-- C6: end-of-file behaviour of the verify loop: reaching end-of-file on
a file that is not the expected last one, or on the last file at a byte
total different from the recorded last-file-size marker, is the fatal
`Unexpectedly short file` error — an outcome distinct from a data
mismatch, both at the block-loop level (`short` vs `mism`) and at the
run level (`shortExit` vs `mismExit`) — which exits the whole run;
end-of-file on the expected last file at exactly the marker's byte count
ends the read loop cleanly with the `done` flag.  The last conjunct runs
the whole verify phase on a run whose file `k` is truncated to nothing:
after the preceding files verify, the run stops in the short-file
failure exit. -/
theorem claim_C6_short_file (content : List Nat)
    (fn1 limitN lastSize bleft blocknum rnd rtotal : Nat)
    (heof : content.length ≤ rtotal) :
    (fn1 ≠ limitN →
      readBlocks content fn1 limitN lastSize (bleft + 1) blocknum rnd rtotal =
        .short rtotal) ∧
    (fn1 = limitN → lastSize ≠ UINTMAX → rtotal ≠ lastSize →
      readBlocks content fn1 limitN lastSize (bleft + 1) blocknum rnd rtotal =
        .short rtotal) ∧
    (fn1 = limitN → rtotal = lastSize →
      readBlocks content fn1 limitN lastSize (bleft + 1) blocknum rnd rtotal =
        .ok rtotal true) ∧
    (∀ rt b off, (FileCheck.short rt) ≠ FileCheck.mism b off) ∧
    (∀ (gseed fsize : Nat) (files : List (List Nat)) (uA : Bool)
        (fuel filenum : Nat) (content2 : List Nat) (rt : Nat),
      files[filenum]? = some content2 →
      readBlocks content2 (filenum + 1) files.length lastSize fsize 0
        ((gseed + (filenum + 1)) % U32) 0 = .short rt →
      readFilesGo gseed fsize files lastSize uA (fuel + 1) filenum =
        .shortExit filenum uA) ∧
    (∀ (gseed fsize : Nat) (files : List (List Nat)) (uA : Bool)
        (fuel filenum : Nat) (content2 : List Nat) (rt : Nat),
      files[filenum]? = some content2 →
      readBlocks content2 (filenum + 1) files.length lastSize fsize 0
        ((gseed + (filenum + 1)) % U32) 0 = .ok rt true →
      readFilesGo gseed fsize files lastSize uA (fuel + 1) filenum =
        .success (filenum + 1) uA) ∧
    (∀ (f f2 b off : Nat) (u u2 : Bool),
      (ReadResult.shortExit f u) ≠ ReadResult.mismExit f2 b off u2) ∧
    (∀ (gseed fsize : Nat) (files : List (List Nat)) (lastSize2 : Nat) (uA : Bool)
        (k : Nat),
      0 < fsize → k < files.length →
      (∀ j, j < k → files[j]? = some (fullFileBytes ((gseed + (j + 1)) % U32) fsize)) →
      files[k]? = some [] →
      (k + 1 ≠ files.length ∨ (lastSize2 ≠ UINTMAX ∧ (0 : Nat) ≠ lastSize2)) →
      read_randfiles gseed fsize files lastSize2 uA = .shortExit k uA) := by
  have hsub : content.length - rtotal = 0 := Nat.sub_eq_zero_of_le heof
  refine ⟨?_, ?_, ?_, ?_, ?_, ?_, ?_, ?_⟩
  · intro h1
    rw [readBlocks, hsub, Nat.min_zero, if_pos rfl, if_pos (Or.inl h1)]
  · intro h1 h2 h3
    rw [readBlocks, hsub, Nat.min_zero, if_pos rfl, if_pos (Or.inr ⟨h2, h3⟩)]
  · intro h1 h2
    rw [readBlocks, hsub, Nat.min_zero, if_pos rfl, if_neg (by simp [h1, h2])]
  · intro rt b off
    simp
  · intro gseed fsize files uA fuel filenum content2 rt hfile hblocks
    exact readFilesGo_step_short gseed fsize files lastSize uA fuel filenum rt content2
      hfile hblocks
  · intro gseed fsize files uA fuel filenum content2 rt hfile hblocks
    exact readFilesGo_step_done gseed fsize files lastSize uA fuel filenum rt content2
      hfile hblocks
  · intro f f2 b off u u2
    simp
  · intro gseed fsize files lastSize2 uA k hfs hk hprev hfile hcase2
    obtain ⟨fb, rfl⟩ : ∃ fb, fsize = fb + 1 := ⟨fsize - 1, by omega⟩
    rw [read_randfiles,
      show files.length + 1 = k + ((files.length - k - 1 + 1) + 1) by omega,
      readFilesGo_skip gseed (fb + 1) files lastSize2 uA k ((files.length - k - 1 + 1) + 1) 0
        (by
          intro j hj0 hj
          rw [Nat.zero_add] at hj
          exact ⟨fullFileBytes ((gseed + (j + 1)) % U32) (fb + 1), (fb + 1) * blockBytes,
            hprev j hj,
            readBlocks_of_fullFileBytes _ (fb + 1) (j + 1) files.length lastSize2
              (Or.inl (by omega))⟩),
      Nat.zero_add]
    exact readFilesGo_step_short gseed (fb + 1) files lastSize2 uA _ k 0 [] hfile
      (by
        rw [readBlocks_eof [] (k + 1) files.length lastSize2 fb 0
          ((gseed + (k + 1)) % U32) 0 (by simp), if_pos hcase2])

theorem claim_C6_short_file_witness :
    ([] : List Nat).length ≤ 0 ∧
    (((1 : Nat) ≠ 2 →
      readBlocks [] 1 2 0 (0 + 1) 0 0 0 = .short 0) ∧
    ((1 : Nat) = 2 → (0 : Nat) ≠ UINTMAX → (0 : Nat) ≠ 0 →
      readBlocks [] 1 2 0 (0 + 1) 0 0 0 = .short 0) ∧
    ((1 : Nat) = 2 → (0 : Nat) = 0 →
      readBlocks [] 1 2 0 (0 + 1) 0 0 0 = .ok 0 true) ∧
    (∀ rt b off, (FileCheck.short rt) ≠ FileCheck.mism b off) ∧
    (∀ (gseed fsize : Nat) (files : List (List Nat)) (uA : Bool)
        (fuel filenum : Nat) (content2 : List Nat) (rt : Nat),
      files[filenum]? = some content2 →
      readBlocks content2 (filenum + 1) files.length 0 fsize 0
        ((gseed + (filenum + 1)) % U32) 0 = .short rt →
      readFilesGo gseed fsize files 0 uA (fuel + 1) filenum =
        .shortExit filenum uA) ∧
    (∀ (gseed fsize : Nat) (files : List (List Nat)) (uA : Bool)
        (fuel filenum : Nat) (content2 : List Nat) (rt : Nat),
      files[filenum]? = some content2 →
      readBlocks content2 (filenum + 1) files.length 0 fsize 0
        ((gseed + (filenum + 1)) % U32) 0 = .ok rt true →
      readFilesGo gseed fsize files 0 uA (fuel + 1) filenum =
        .success (filenum + 1) uA) ∧
    (∀ (f f2 b off : Nat) (u u2 : Bool),
      (ReadResult.shortExit f u) ≠ ReadResult.mismExit f2 b off u2) ∧
    (∀ (gseed fsize : Nat) (files : List (List Nat)) (lastSize2 : Nat) (uA : Bool)
        (k : Nat),
      0 < fsize → k < files.length →
      (∀ j, j < k → files[j]? = some (fullFileBytes ((gseed + (j + 1)) % U32) fsize)) →
      files[k]? = some [] →
      (k + 1 ≠ files.length ∨ (lastSize2 ≠ UINTMAX ∧ (0 : Nat) ≠ lastSize2)) →
      read_randfiles gseed fsize files lastSize2 uA = .shortExit k uA)) :=
  ⟨by decide, claim_C6_short_file [] 1 2 0 0 0 0 0 (by decide)⟩

/-- C10 (implicit): the byte offset printed for a mismatch at item index
`i` within a block is `i * sizeof(int) = 4 * i`, although the compared
items are 8-byte `uint64_t` words whose true byte offset in the block is
`8 * i`; for every `i > 0` the reported offset is exactly half the true
one. -/
theorem claim_C10_reported_offset (rnd fsize lastSize fn1 limitN i0 y : Nat)
    (ys : List Nat)
    (hcount : i0 + 1 + ys.length = fsize * blockItems)
    (hy : y < U64) (hys : ∀ x ∈ ys, x < U64)
    (hneq : y ≠ lcgOut rnd i0)
    (hcase : fn1 ≠ limitN ∨ lastSize = UINTMAX) :
    readBlocks (itemsToBytes (lcgList rnd i0 ++ y :: ys)) fn1 limitN lastSize
      fsize 0 rnd 0 = .mism (i0 / blockItems) ((i0 % blockItems) * 4) ∧
    ((i0 % blockItems) * 4) * 2 = (i0 % blockItems) * 8 ∧
    (0 < i0 % blockItems → (i0 % blockItems) * 4 ≠ (i0 % blockItems) * 8) := by
  refine ⟨?_, by ring, by intro h; omega⟩
  have hmis := readBlocks_mismatch fn1 limitN lastSize fsize
    (itemsToBytes (lcgList rnd i0 ++ y :: ys)) 0 rnd 0 i0 y ys
    (by
      rw [itemsToBytes_length, List.length_append, lcgList_length, List.length_cons,
        show i0 + (ys.length + 1) = fsize * blockItems by omega, blockBytes_eq,
        Nat.zero_add]
      ring)
    (by rw [List.drop_zero])
    hcount hy hys hneq
    (by
      intro b _ _ hc
      rcases hcase with h | h
      · exact h hc.1
      · exact hc.2.1 h)
  rwa [Nat.zero_add] at hmis

theorem claim_C10_reported_offset_witness :
    ((2 : Nat) + 1 + (List.replicate (blockItems - 3) 0).length = 1 * blockItems ∧
      (0 : Nat) < U64 ∧
      (0 : Nat) ≠ lcgOut 6 2) ∧
    (readBlocks (itemsToBytes (lcgList 6 2 ++ 0 :: List.replicate (blockItems - 3) 0))
        1 2 UINTMAX 1 0 6 0 = .mism (2 / blockItems) ((2 % blockItems) * 4) ∧
      ((2 % blockItems) * 4) * 2 = (2 % blockItems) * 8 ∧
      (0 < 2 % blockItems → (2 % blockItems) * 4 ≠ (2 % blockItems) * 8)) :=
  ⟨⟨by simp only [List.length_replicate]; decide, by decide, by decide⟩,
    claim_C10_reported_offset 6 1 UINTMAX 1 2 2 0 (List.replicate (blockItems - 3) 0)
      (by simp only [List.length_replicate]; decide) (by decide)
      (by intro x hx; rw [List.eq_of_mem_replicate hx]; decide)
      (by decide) (Or.inl (by decide))⟩

/-- C7: phase order of `main`: every iteration of a non-read-only run is
clean-old, then fill, then verify (omitted exactly when the skip-verify
flag is set), then clean-after (executed exactly when the unlink-after
policy is set and verification did not fail); a read-only run performs no
clean-old and no fill and enters directly at verify, and may still run
clean-after; a failing verify ends the whole run at once, so no
clean-after and no further iterations follow it. -/
theorem claim_C7_phase_order (cfg : Config) (oracle : Nat → Bool) :
    (cfg.readonly = false → (∀ r, oracle r = false) →
      mainTrace cfg oracle = (List.range cfg.repeats).flatMap (fun _ =>
        [Phase.cleanOld, Phase.fill] ++
        (if cfg.skipVerify then [] else [Phase.verify]) ++
        (if cfg.unlinkAfter then [Phase.cleanAfter] else []))) ∧
    (cfg.readonly = true → (∀ r, oracle r = false) →
      mainTrace cfg oracle = (List.range cfg.repeats).flatMap (fun _ =>
        [Phase.verify] ++
        (if cfg.unlinkAfter then [Phase.cleanAfter] else []))) ∧
    (∀ r0, cfg.readonly = false → cfg.skipVerify = false → r0 < cfg.repeats →
      (∀ j, j < r0 → oracle j = false) → oracle r0 = true →
      mainTrace cfg oracle = (List.range r0).flatMap (fun _ =>
        [Phase.cleanOld, Phase.fill, Phase.verify] ++
        (if cfg.unlinkAfter then [Phase.cleanAfter] else [])) ++
        [Phase.cleanOld, Phase.fill, Phase.verify]) := by
  refine ⟨?_, ?_, ?_⟩
  · intro hro hok
    rw [mainTrace, mainLoop_no_failure cfg oracle hok]
    simp only [hro, Bool.false_eq_true, if_false]
  · intro hro hok
    rw [mainTrace, mainLoop_no_failure cfg oracle hok]
    simp only [hro, if_true, List.nil_append]
  · intro r0 hro hsk hlt hprev hfail
    rw [mainTrace]
    exact mainLoop_first_failure cfg oracle hro hsk r0 cfg.repeats 0 hlt
      (fun j hj => by rw [Nat.zero_add]; exact hprev j hj)
      (by rw [Nat.zero_add]; exact hfail)

theorem claim_C7_phase_order_witness :
    (mainTrace ⟨false, false, true, 2⟩ (fun _ => false) =
      (List.range 2).flatMap (fun _ =>
        [Phase.cleanOld, Phase.fill] ++
        (if (false : Bool) then [] else [Phase.verify]) ++
        (if (true : Bool) then [Phase.cleanAfter] else []))) ∧
    (mainTrace ⟨true, false, true, 2⟩ (fun _ => false) =
      (List.range 2).flatMap (fun _ =>
        [Phase.verify] ++
        (if (true : Bool) then [Phase.cleanAfter] else []))) ∧
    (mainTrace ⟨false, false, false, 3⟩ (fun r => decide (r = 1)) =
      (List.range 1).flatMap (fun _ =>
        [Phase.cleanOld, Phase.fill, Phase.verify] ++
        (if (false : Bool) then [Phase.cleanAfter] else [])) ++
        [Phase.cleanOld, Phase.fill, Phase.verify]) :=
  ⟨(claim_C7_phase_order ⟨false, false, true, 2⟩ (fun _ => false)).1 rfl
      (fun _ => rfl),
    (claim_C7_phase_order ⟨true, false, true, 2⟩ (fun _ => false)).2.1 rfl
      (fun _ => rfl),
    (claim_C7_phase_order ⟨false, false, false, 3⟩ (fun r => decide (r = 1))).2.2 1
      rfl rfl (by decide)
      (fun j hj => by
        have hj0 : j = 0 := by omega
        rw [hj0]
        rfl)
      rfl⟩

end DiskFilltest
